import Mathlib

set_option maxHeartbeats 1000000

/-!
Verification development for the canvas overlay service (src/index.js).
Strings are modelled as lists of characters; the JavaScript string
operations used by the service are embedded as executable functions on
`Str`.  Regex character classes are modelled on the ASCII range, which
covers every character class the service uses (`\s`, `\w`, `\d`).
-/

abbrev Str : Type := List Char

/-- Models the JavaScript regex class \s (ASCII whitespace range). -/
def isJsWs (c : Char) : Bool :=
  c == ' ' || c == '\t' || c == '\n' || c == '\r' || c == '\x0b' || c == '\x0c'

/-- Models the JavaScript regex class \w (ASCII word characters). -/
def isWordChar (c : Char) : Bool := c.isAlphanum || c == '_'

/-- The apostrophe character, used by the literal in the relatable check. -/
def apos : Char := Char.ofNat 39

/-- Lowercase and uppercase ASCII letter pairs, used to model
String.prototype.toUpperCase and toLowerCase on the ASCII range. -/
def casePairs : List (Char × Char) :=
  [('a','A'), ('b','B'), ('c','C'), ('d','D'), ('e','E'), ('f','F'), ('g','G'),
   ('h','H'), ('i','I'), ('j','J'), ('k','K'), ('l','L'), ('m','M'), ('n','N'),
   ('o','O'), ('p','P'), ('q','Q'), ('r','R'), ('s','S'), ('t','T'), ('u','U'),
   ('v','V'), ('w','W'), ('x','X'), ('y','Y'), ('z','Z')]

/-- Uppercases one ASCII character, as toUpperCase does. -/
def jsUpChar (c : Char) : Char :=
  match casePairs.find? (fun p => p.1 == c) with
  | some p => p.2
  | none => c

/-- Lowercases one ASCII character, as toLowerCase does. -/
def jsLowChar (c : Char) : Char :=
  match casePairs.find? (fun p => p.2 == c) with
  | some p => p.1
  | none => c

/-- Models String.prototype.toUpperCase. -/
def upperStr (l : Str) : Str := l.map jsUpChar

/-- Models String.prototype.toLowerCase. -/
def lowerStr (l : Str) : Str := l.map jsLowChar

/-- Models String.prototype.trim. -/
def jsTrim (l : Str) : Str := ((l.dropWhile isJsWs).reverse.dropWhile isJsWs).reverse

/-- Splits a list at every separator character selected by p.  Models
String.prototype.split with a single-character separator (or a
single-character class regex such as /[.!?]/).  Separators are consumed;
adjacent separators yield empty pieces, exactly as in JavaScript. -/
def splitOnP (p : Char → Bool) : Str → List Str
  | [] => [[]]
  | c :: rest =>
    if p c then [] :: splitOnP p rest
    else
      match splitOnP p rest with
      | [] => [[c]]
      | piece :: pieces => (c :: piece) :: pieces

/-- Does the first list occur as a leading segment of the second one. -/
def listStartsWith : Str → Str → Bool
  | [], _ => true
  | _ :: _, [] => false
  | p :: ps, c :: cs => p == c && listStartsWith ps cs

/-- Models String.prototype.includes: the needle occurs somewhere in the hay. -/
def hasSubstr : Str → Str → Bool
  | [], needle => needle == []
  | c :: t, needle => listStartsWith needle (c :: t) || hasSubstr t needle

/-- Models the regex test /\d+%/.test(s): the string has a digit directly
followed by a percent sign (the last digit of the matched digit run). -/
def hasDigitPercent : Str → Bool
  | c1 :: c2 :: rest => (c1.isDigit && c2 == '%') || hasDigitPercent (c2 :: rest)
  | _ => false

/-- Truthiness of an optional string: undefined and the empty string are falsy. -/
def jsFalsyO : Option Str → Bool
  | none => true
  | some s => s == []

/-- Models the JavaScript expression o || dflt for an optional string o. -/
def jsOrStr (o : Option Str) (dflt : Str) : Str :=
  match o with
  | some s => if s == [] then dflt else s
  | none => dflt

/-! ## Text classifier: extractContentHooks (src/index.js lines 223-276) -/

/-- The hook categories.  The six categories after framework are read by the
generators but are never written by extractContentHooks; they stay none. -/
structure Hooks where
  statistic : Option Str := none
  question : Option Str := none
  pov : Option Str := none
  hotTake : Option Str := none
  result : Option Str := none
  strong : Option Str := none
  transformation : Option Str := none
  relatable : Option Str := none
  framework : Option Str := none
  controversial : Option Str := none
  revelation : Option Str := none
  aspirational : Option Str := none
  benefit : Option Str := none
  story : Option Str := none
  solution : Option Str := none
deriving DecidableEq

/-- The literal string in the relatable check of the source, containing an
apostrophe between the letters e and v. -/
def weveAll : Str := "we".data ++ [apos] ++ "ve all".data

/-- One step of the forEach body of extractContentHooks.  Every condition
reads only the field it writes, so the nine updates are independent. -/
def hookStep (hooks : Hooks) (line : Str) : Hooks :=
  let cleanLine := jsTrim line
  { hooks with
    statistic :=
      if hasDigitPercent cleanLine && jsFalsyO hooks.statistic then some cleanLine
      else hooks.statistic
    question :=
      if cleanLine.contains '?' && jsFalsyO hooks.question then some cleanLine
      else hooks.question
    pov :=
      if hasSubstr (lowerStr cleanLine) "pov:".data && jsFalsyO hooks.pov then some cleanLine
      else hooks.pov
    hotTake :=
      if hasSubstr (lowerStr cleanLine) "hot take".data && jsFalsyO hooks.hotTake then
        some cleanLine
      else hooks.hotTake
    result :=
      if hasSubstr (lowerStr cleanLine) "result:".data && jsFalsyO hooks.result then
        some cleanLine
      else hooks.result
    strong :=
      if decide (cleanLine.length < 80) && decide (20 < cleanLine.length) &&
          !cleanLine.contains '?' && jsFalsyO hooks.strong then
        some cleanLine
      else hooks.strong
    transformation :=
      if (hasSubstr cleanLine "transform".data || hasSubstr cleanLine "changes".data ||
          hasSubstr cleanLine "=".data) && jsFalsyO hooks.transformation then
        some cleanLine
      else hooks.transformation
    relatable :=
      if (hasSubstr cleanLine "feel".data || hasSubstr cleanLine "been there".data ||
          hasSubstr cleanLine weveAll) && jsFalsyO hooks.relatable then
        some cleanLine
      else hooks.relatable
    framework :=
      if (hasSubstr cleanLine "Matrix".data || hasSubstr cleanLine "System".data ||
          hasSubstr cleanLine "Framework".data) && jsFalsyO hooks.framework then
        some cleanLine
      else hooks.framework }

/-- extractContentHooks: scan the content lines in order, first match wins
per category. -/
def extractContentHooks (contentLines : List Str) : Hooks :=
  contentLines.foldl hookStep {}

/-! ## Helper extractors (src/index.js lines 279-301) -/

/-- Benefit keywords of extractKeyBenefit. -/
def benefitKeywords : List Str :=
  ["3x".data, "faster".data, "accelerat".data, "transform".data,
   "revolutionar".data, "master".data, "breakthrough".data]

/-- extractKeyBenefit: first sentence of the excerpt containing a benefit
keyword, else the first substantial sentence, else the first 100 characters. -/
def extractKeyBenefit (excerpt : Option Str) : Str :=
  match excerpt with
  | none => "STRATEGIC INSIGHTS FOR PROFESSIONALS".data
  | some e =>
    if e == [] then "STRATEGIC INSIGHTS FOR PROFESSIONALS".data
    else
      let sentences := (splitOnP (fun c => c == '.') e).filter
        (fun s => 10 < (jsTrim s).length)
      match sentences.find? (fun s => benefitKeywords.any (fun k => hasSubstr (lowerStr s) k)) with
      | some s => jsTrim s
      | none =>
        match sentences with
        | s0 :: _ => s0
        | [] => e.take 100

/-- extractFirstSentence: first sentence of the content longer than 15
characters after trimming, else the first 80 characters of the content. -/
def extractFirstSentence (content : Str) : Str :=
  let sentences := (splitOnP (fun c => c == '.' || c == '!' || c == '?') content).filter
    (fun s => 15 < (jsTrim s).length)
  match sentences.head? with
  | some s => jsTrim s
  | none => content.take 80

/-! ## Text formatter: formatForDisplay (src/index.js lines 304-323) -/

/-- Characters kept by the strip step, the regex class [\w\s.,!?:%-]. -/
def keepChar (c : Char) : Bool :=
  isWordChar c || isJsWs c || c == '.' || c == ',' || c == '!' || c == '?' ||
    c == ':' || c == '%' || c == '-'

/-- Models replace(/\n/g, ' '). -/
def replaceNl (l : Str) : Str := l.map (fun c => if c == '\n' then ' ' else c)

/-- Models replace(/\s+/g, ' '): every maximal whitespace run becomes one
space.  Written with one character of lookahead so that the recursion is
structural: inner characters of a run are dropped and its last character
emits the single replacement space. -/
def collapseWs : Str → Str
  | [] => []
  | [c] => if isJsWs c then [' '] else [c]
  | c :: d :: rest =>
    if isJsWs c then
      if isJsWs d then collapseWs (d :: rest)
      else ' ' :: collapseWs (d :: rest)
    else c :: collapseWs (d :: rest)

/-- Models replace(/[^\w\s.,!?:%-]/g, ''). -/
def stripChars (l : Str) : Str := l.filter keepChar

/-- The cleanup pipeline of formatForDisplay: newline replacement,
whitespace collapsing, trimming and character stripping, in source order. -/
def cleanForDisplay (t : Str) : Str := stripChars (jsTrim (collapseWs (replaceNl t)))

/-- The keywords of the uppercase-keyword replacement, in alternation order. -/
def keywordsKW : List Str :=
  ["RESULT".data, "POV".data, "HOT TAKE".data, "MATRIX".data, "SYSTEM".data,
   "FRAMEWORK".data, "TRANSFORMATION".data]

/-- Case-insensitive match of an uppercase keyword against the start of the text. -/
def matchesCI : Str → Str → Bool
  | [], _ => true
  | _ :: _, [] => false
  | k :: ks, c :: cs => (jsUpChar c == k) && matchesCI ks cs

/-- Word-boundary check after a match of n characters: next character absent
or not a word character. -/
def boundaryAfterOK (l : Str) (n : Nat) : Bool :=
  match l.drop n with
  | [] => true
  | c :: _ => !isWordChar c

/-- First keyword of the alternation that matches at the start of l with a
word boundary after it. -/
def findKeyword (l : Str) : Option Str :=
  keywordsKW.find? (fun k => matchesCI k l && boundaryAfterOK l k.length)

/-- Is the previous character a word character (false at the string start). -/
def isWordOpt : Option Char → Bool
  | none => false
  | some c => isWordChar c

/-- Fuel-driven scan of replace(/\b(RESULT|POV|HOT TAKE|...)\b/gi,
w => w.toUpperCase()).  Every keyword starts and ends with a word character,
so a match can only start where the previous character is not a word
character, and the matched span is emitted uppercased. -/
def kwReplaceAux : Nat → Option Char → Str → Str
  | 0, _, l => l
  | _ + 1, _, [] => []
  | fuel + 1, prev, c :: rest =>
    if isWordOpt prev then c :: kwReplaceAux fuel (some c) rest
    else
      match findKeyword (c :: rest) with
      | some k =>
        let chunk := (c :: rest).take k.length
        upperStr chunk ++ kwReplaceAux fuel chunk.getLast? ((c :: rest).drop k.length)
      | none => c :: kwReplaceAux fuel (some c) rest

/-- The keyword-uppercasing replacement applied to a whole string. -/
def kwReplace (l : Str) : Str := kwReplaceAux l.length none l

/-- The default string returned for falsy input. -/
def placeholderStr : Str := "PROFESSIONAL INSIGHTS".data

/-- formatForDisplay (src/index.js lines 304-323). -/
def formatForDisplay (text : Option Str) : Str :=
  match text with
  | none => placeholderStr
  | some t =>
    if t == [] then placeholderStr
    else
      let formatted := cleanForDisplay t
      if formatted.length < 60 then upperStr formatted
      else kwReplace formatted

/-! ## Hook selector: generateEngagingHook (src/index.js lines 162-220) -/

structure HookContent where
  headline : Str
  support : Str
  cta : Str
deriving DecidableEq

/-- The fixed call-to-action literal shared by all generators. -/
def ctaStr : Str := "LINK IN BIO ↗".data

def linkedinGen (hooks : Hooks) (content : Str) (excerpt : Option Str) : HookContent :=
  let headline := jsOrStr hooks.statistic (jsOrStr hooks.strong (extractFirstSentence content))
  let support := jsOrStr hooks.result (jsOrStr hooks.framework (extractKeyBenefit excerpt))
  { headline := formatForDisplay (some headline)
    support := formatForDisplay (some support)
    cta := ctaStr }

def twitterGen (hooks : Hooks) (content : Str) (excerpt : Option Str) : HookContent :=
  let headline := jsOrStr hooks.hotTake (jsOrStr hooks.controversial
    (jsOrStr hooks.strong (extractFirstSentence content)))
  let support := jsOrStr hooks.statistic (jsOrStr hooks.revelation (extractKeyBenefit excerpt))
  { headline := formatForDisplay (some headline)
    support := formatForDisplay (some support)
    cta := ctaStr }

def instagramGen (hooks : Hooks) (content : Str) (excerpt : Option Str) : HookContent :=
  let headline := jsOrStr hooks.pov (jsOrStr hooks.transformation
    (jsOrStr hooks.aspirational (extractFirstSentence content)))
  let support := jsOrStr hooks.benefit (jsOrStr hooks.transformation (extractKeyBenefit excerpt))
  { headline := formatForDisplay (some headline)
    support := formatForDisplay (some support)
    cta := ctaStr }

def facebookGen (hooks : Hooks) (content : Str) (excerpt : Option Str) : HookContent :=
  let headline := jsOrStr hooks.question (jsOrStr hooks.relatable
    (jsOrStr hooks.story (extractFirstSentence content)))
  let support := jsOrStr hooks.story (jsOrStr hooks.solution (extractKeyBenefit excerpt))
  { headline := formatForDisplay (some headline)
    support := formatForDisplay (some support)
    cta := ctaStr }

/-- The own property names of Object.prototype.  An object literal
inherits these members through its prototype chain, so the read tbl[k]
with such a key k yields the inherited member — a function, or for the
accessor the prototype object itself, in every case a truthy value —
although the literal declares no own property named k. -/
def protoKeys : List Str :=
  ["constructor".data, "hasOwnProperty".data, "isPrototypeOf".data,
   "propertyIsEnumerable".data, "toLocaleString".data, "toString".data,
   "valueOf".data, "__proto__".data, "__defineGetter__".data,
   "__defineSetter__".data, "__lookupGetter__".data, "__lookupSetter__".data]

/-- Result of the property read tbl[k] on an object literal: an own
property of the literal, a member inherited from Object.prototype (which
is never one of the literal's values), or undefined. -/
inductive JsProp (α : Type) where
  | own : α → JsProp α
  | inherited : Str → JsProp α
  | missing : JsProp α
deriving DecidableEq

/-- Property read on an object literal used as a table: own properties
shadow the prototype chain, then the inherited Object.prototype members
are found, and only a key that is neither yields undefined. -/
def tableGet {α : Type} (tbl : List (Str × α)) (k : Str) : JsProp α :=
  match tbl.find? (fun q => q.1 == k) with
  | some q => .own q.2
  | none => if k ∈ protoKeys then .inherited k else .missing

/-- Property read with an optional key.  An undefined key is coerced to
the property name undefined, which neither the tables nor the prototype
supply, so the read yields undefined. -/
def optGet {α : Type} (tbl : List (Str × α)) (k : Option Str) : JsProp α :=
  match k with
  | none => .missing
  | some s => tableGet tbl s

/-- Value of the idiom tbl[k] || dflt: the table value when k is an own
key holding a truthy value, the inherited member itself when k names an
Object.prototype member (all of them are truthy, so the fallback is not
taken), and the fallback only when the read yields undefined or a falsy
own value. -/
inductive JsReadOr (α : Type) where
  | value : α → JsReadOr α
  | protoMember : Str → JsReadOr α
deriving DecidableEq

def jsReadOr {α : Type} (truthy : α → Bool) (p : JsProp α) (dflt : α) : JsReadOr α :=
  match p with
  | .own v => if truthy v then .value v else .value dflt
  | .inherited s => .protoMember s
  | .missing => .value dflt

/-- The generators object of generateEngagingHook. -/
def generatorsTable : List (Str × (Hooks → Str → Option Str → HookContent)) :=
  [("linkedin".data, linkedinGen), ("twitter".data, twitterGen),
   ("instagram".data, instagramGen), ("facebook".data, facebookGen)]

/-- The substantive line filter of generateEngagingHook (line 164). -/
def contentLines (content : Str) : List Str :=
  (splitOnP (fun c => c == '\n') content).filter (fun line => 10 < (jsTrim line).length)

/-- The classifier applied exactly as generateEngagingHook applies it. -/
def hooksOf (content : Str) : Hooks := extractContentHooks (contentLines content)

/-- Outcome of generateEngagingHook as the endpoint observes it.  When the
platform dispatch generators[platform] || generators.linkedin yields an
own generator (or the linkedin fallback), calling it builds a hook record.
When the platform names an inherited Object.prototype member, that truthy
member is picked instead of the fallback and calling it never yields a
record with string fields: the accessor and the define and lookup members
throw at the call, and the remaining members return a primitive, a
boolean or the global object, so reading headline gives undefined and the
later wrapText call throws on it.  The endpoint's catch turns each of
these throws into a 500; protoCall records the member's name. -/
inductive HookResult where
  | content : HookContent → HookResult
  | protoCall : Str → HookResult
deriving DecidableEq

/-- generateEngagingHook: pick the generator for the platform and run it on
the classified hooks.  Own keys of the generators object dispatch to their
generator; an inherited Object.prototype member is found by the lookup and
produces no hook record; only any other value leaves generators[platform]
undefined so that the linkedin fallback runs.  The title parameter is
accepted but unused, as in the source. -/
def generateEngagingHook (platform : Option Str) (_title : Option Str) (content : Str)
    (excerpt : Option Str) : HookResult :=
  let hooks := hooksOf content
  match optGet generatorsTable platform with
  | .own g => .content (g hooks content excerpt)
  | .inherited s => .protoCall s
  | .missing => .content (linkedinGen hooks content excerpt)

/-! ## Platform style tables (src/index.js lines 121-159) -/

def fontsMain : List (Str × Str) :=
  [("linkedin".data, "bold 52px Arial".data), ("twitter".data, "bold 48px Arial".data),
   ("instagram".data, "bold 56px Arial".data), ("facebook".data, "bold 50px Arial".data)]

def getMainFont (platform : Option Str) : JsReadOr Str :=
  jsReadOr (fun s => !(s == [])) (optGet fontsMain platform) "bold 52px Arial".data

def heightsMain : List (Str × Nat) :=
  [("linkedin".data, 58), ("twitter".data, 54), ("instagram".data, 62), ("facebook".data, 56)]

def getMainLineHeight (platform : Option Str) : JsReadOr Nat :=
  jsReadOr (fun n => !(n == 0)) (optGet heightsMain platform) 58

def fontsSupport : List (Str × Str) :=
  [("linkedin".data, "normal 28px Arial".data), ("twitter".data, "normal 26px Arial".data),
   ("instagram".data, "normal 30px Arial".data), ("facebook".data, "normal 27px Arial".data)]

def getSupportFont (platform : Option Str) : JsReadOr Str :=
  jsReadOr (fun s => !(s == [])) (optGet fontsSupport platform) "normal 28px Arial".data

def colorsMain : List (Str × Str) :=
  [("linkedin".data, "#FFFFFF".data), ("twitter".data, "#FFD700".data),
   ("instagram".data, "#FF69B4".data), ("facebook".data, "#87CEEB".data)]

def getMainTextColor (platform : Option Str) : JsReadOr Str :=
  jsReadOr (fun s => !(s == [])) (optGet colorsMain platform) "#FFFFFF".data

/-! ## Layout engine: wrapText (src/index.js lines 340-391) -/

/-- Join a list of strings with single spaces, the inverse of splitting. -/
def joinSp : List Str → Str
  | [] => []
  | [x] => x
  | x :: xs => x ++ ' ' :: joinSp xs

/-- Is the last character of the accumulated piece a sentence end, the
lookbehind (?<=[.!?]) of the sentence split. -/
def endsPunct (l : Str) : Bool :=
  match l.getLast? with
  | some c => c == '.' || c == '!' || c == '?'
  | none => false

/-- Models text.split(/(?<=[.!?])\s+/): a maximal whitespace run directly
after a sentence-ending character separates pieces.  Written with one
character of lookahead so that the recursion is structural: while the next
character continues the whitespace run the accumulated piece (which still
ends in punctuation) is kept pending, and the piece is flushed when the run
ends, either inside the string or at its end. -/
def splitSentences.go (cur : Str) : Str → List Str
  | [] => [cur]
  | [c] =>
    if isJsWs c && endsPunct cur then [cur, []]
    else [cur ++ [c]]
  | c :: d :: rest =>
    if isJsWs c && endsPunct cur then
      if isJsWs d then splitSentences.go cur (d :: rest)
      else cur :: splitSentences.go [d] rest
    else splitSentences.go (cur ++ [c]) (d :: rest)

def splitSentences (text : Str) : List Str := splitSentences.go [] text

/-- The shared accumulate-and-flush loop of wrapText: extend the current
line by the next piece; if the extended line overflows and the current line
is non-empty, flush it and restart from the piece. -/
def accumLoop (jn : Str → Str → Str) (measure : Str → Nat) (maxWidth : Nat) :
    Str → List Str → List Str
  | cur, [] => if 0 < cur.length then [cur] else []
  | cur, s :: rest =>
    let testLine := jn cur s
    if maxWidth < measure testLine ∧ 0 < cur.length then
      cur :: accumLoop jn measure maxWidth s rest
    else accumLoop jn measure maxWidth testLine rest

/-- The sentence-phase join: currentLine ? currentLine + ' ' + sentence : sentence. -/
def joinSent (cur s : Str) : Str := if 0 < cur.length then cur ++ ' ' :: s else s

/-- The word-phase join: wordLine + ' ' + word, unconditionally. -/
def joinWord (cur s : Str) : Str := cur ++ ' ' :: s

/-- Word-wrap one overlong line: split on single spaces, seed with the first
word, then accumulate greedily. -/
def wordWrapLine (measure : Str → Nat) (maxWidth : Nat) (line : Str) : List Str :=
  match splitOnP (fun c => c == ' ') line with
  | [] => []
  | w :: ws => accumLoop joinWord measure maxWidth w ws

/-- wrapText: wrap by sentences first, then word-wrap any line that still
overflows.  The measurement capability of the drawing context is an
arbitrary function from strings to widths. -/
def wrapText (measure : Str → Nat) (text : Str) (maxWidth : Nat) : List Str :=
  let sentences := splitSentences text
  let lines := accumLoop joinSent measure maxWidth [] sentences
  (lines.map (fun line =>
    if measure line ≤ maxWidth then [line] else wordWrapLine measure maxWidth line)).flatten

/-! ## HTTP endpoint: POST /overlay (src/index.js lines 20-118) -/

structure RequestBody where
  background_url : Option Str
  content : Option Str
  platform : Option Str
  title : Option Str
  excerpt : Option Str

/-- Outcome of one outbound image fetch (non-200, timeout and decode
failures are all modelled as failed). -/
inductive FetchOutcome where
  | ok : FetchOutcome
  | failed : Str → FetchOutcome

inductive OverlayResponse where
  | badRequest : Str → OverlayResponse
  | ok : Option Str → HookContent → OverlayResponse
  | serverError : Str → OverlayResponse
deriving DecidableEq

/-- Observable trace of one request: the response plus which effects ran. -/
structure HandlerTrace where
  response : OverlayResponse
  backgroundFetched : Bool
  logoDrawn : Bool
  rendered : Bool
  supportShown : Bool
deriving DecidableEq

def missingMsg : Str := "Missing background_url or content".data

/-- Is the support text block drawn: the truthiness test
if (hookContent.support) of the handler. -/
def supportBlockShown (support : Str) : Bool := !(support == [])

/-- The endpoint's catch answers 500 with the thrown error's message; the
exact TypeError text thrown while rendering a hook result that is not a
record is abstracted by this constant. -/
def hookThrowMsg : Str := "hook rendering threw a TypeError".data

/-- Control flow of the POST /overlay handler: validate required fields,
fetch the background (fatal on failure), fetch the logo inside try/catch
(failure logged and swallowed), generate the hook content, draw, respond.
When the hook result is not a record — the platform named an inherited
Object.prototype member — rendering throws and the surrounding catch
answers 500, after the logo was already drawn or skipped. -/
def overlayHandler (body : RequestBody) (bgFetch logoFetch : FetchOutcome) : HandlerTrace :=
  if jsFalsyO body.background_url || jsFalsyO body.content then
    { response := .badRequest missingMsg
      backgroundFetched := false, logoDrawn := false, rendered := false, supportShown := false }
  else
    match bgFetch with
    | .failed e =>
      { response := .serverError e
        backgroundFetched := true, logoDrawn := false, rendered := false, supportShown := false }
    | .ok =>
      let logoDrawn := match logoFetch with | .ok => true | .failed _ => false
      match generateEngagingHook body.platform body.title (body.content.getD [])
        body.excerpt with
      | .content hook =>
        { response := .ok body.platform hook
          backgroundFetched := true, logoDrawn := logoDrawn, rendered := true
          supportShown := supportBlockShown hook.support }
      | .protoCall _ =>
        { response := .serverError hookThrowMsg
          backgroundFetched := true, logoDrawn := logoDrawn, rendered := false
          supportShown := false }

/-! ## Auxiliary predicates and comparison definitions -/

/-- The strong-statement predicate of the classifier (source line 255):
strictly fewer than 80 characters, strictly more than 20, no question mark. -/
def strongPred (l : Str) : Bool :=
  decide (l.length < 80) && decide (20 < l.length) && !l.contains '?'

/-- Every whitespace character of the string is a plain space. -/
def onlySpaceWs (l : Str) : Bool := l.all (fun c => !isJsWs c || c == ' ')

/-- No two adjacent characters of the string are both spaces. -/
def noDbl : Str → Bool
  | a :: b :: t => !(a == ' ' && b == ' ') && noDbl (b :: t)
  | _ => true

/-- Does the string not start with a space character. -/
def headNotSpace : Str → Bool
  | [] => true
  | c :: _ => !(c == ' ')

/-- The shape of a space-joined list of words: whitespace occurs only as
single interior spaces, never leading, trailing or doubled. -/
def wordy (l : Str) : Bool :=
  onlySpaceWs l && noDbl l && headNotSpace l && headNotSpace l.reverse

/-- A character removed by the strip step of formatForDisplay: outside word
characters, whitespace and the kept punctuation. -/
def strippedChar (c : Char) : Bool := !keepChar c

/-- The platform names recognized by every lookup table of the service. -/
def platformKeys : List Str :=
  ["linkedin".data, "twitter".data, "instagram".data, "facebook".data]

/-- Modelled from the claim under comparison: the twitter generator with the
never-populated controversial and revelation fallback steps removed. -/
def twitterGenSimplified (hooks : Hooks) (content : Str) (excerpt : Option Str) : HookContent :=
  let headline := jsOrStr hooks.hotTake (jsOrStr hooks.strong (extractFirstSentence content))
  let support := jsOrStr hooks.statistic (extractKeyBenefit excerpt)
  { headline := formatForDisplay (some headline)
    support := formatForDisplay (some support)
    cta := ctaStr }

/-- Modelled from the claim under comparison: the instagram generator with
the never-populated aspirational and benefit fallback steps removed. -/
def instagramGenSimplified (hooks : Hooks) (content : Str) (excerpt : Option Str) : HookContent :=
  let headline := jsOrStr hooks.pov (jsOrStr hooks.transformation (extractFirstSentence content))
  let support := jsOrStr hooks.transformation (extractKeyBenefit excerpt)
  { headline := formatForDisplay (some headline)
    support := formatForDisplay (some support)
    cta := ctaStr }

/-- Modelled from the claim under comparison: the facebook generator with
the never-populated story and solution fallback steps removed. -/
def facebookGenSimplified (hooks : Hooks) (content : Str) (excerpt : Option Str) : HookContent :=
  let headline := jsOrStr hooks.question (jsOrStr hooks.relatable (extractFirstSentence content))
  let support := extractKeyBenefit excerpt
  { headline := formatForDisplay (some headline)
    support := formatForDisplay (some support)
    cta := ctaStr }

/-- The generators object with the dead fallback steps removed; linkedin
reads only categories the classifier can populate and is unchanged. -/
def generatorsTableSimplified : List (Str × (Hooks → Str → Option Str → HookContent)) :=
  [("linkedin".data, linkedinGen), ("twitter".data, twitterGenSimplified),
   ("instagram".data, instagramGenSimplified), ("facebook".data, facebookGenSimplified)]

/-- generateEngagingHook rebuilt over the simplified generator table, with
the same dispatch through the prototype-aware property read. -/
def generateEngagingHookSimplified (platform : Option Str) (_title : Option Str) (content : Str)
    (excerpt : Option Str) : HookResult :=
  let hooks := hooksOf content
  match optGet generatorsTableSimplified platform with
  | .own g => .content (g hooks content excerpt)
  | .inherited s => .protoCall s
  | .missing => .content (linkedinGen hooks content excerpt)

/-! ## Basic helper lemmas -/

theorem mem_of_getLast?_eq {l : Str} {c : Char} (h : l.getLast? = some c) : c ∈ l := by
  have hr : l.reverse.head? = some c := by rwa [List.head?_reverse]
  exact List.mem_reverse.mp (List.mem_of_mem_head? (by rw [hr]; rfl))

theorem dropWhile_eq_self (p : Char → Bool) :
    ∀ l : Str, (∀ c, l.head? = some c → p c = false) → l.dropWhile p = l
  | [], _ => rfl
  | c :: _, h => by simp [List.dropWhile_cons, h c rfl]

theorem jsTrim_eq_self (l : Str) (hh : ∀ c, l.head? = some c → isJsWs c = false)
    (hl : ∀ c, l.getLast? = some c → isJsWs c = false) : jsTrim l = l := by
  rw [jsTrim, dropWhile_eq_self _ l hh, dropWhile_eq_self _ l.reverse
    (fun c hc => hl c (by rwa [List.head?_reverse] at hc)), List.reverse_reverse]

theorem onlySpaceWs_head {c : Char} {rest : Str} (h : onlySpaceWs (c :: rest) = true)
    (hw : isJsWs c = true) : c = ' ' := by
  simp only [onlySpaceWs, List.all_cons, Bool.and_eq_true] at h
  rcases h with ⟨h1, _⟩
  rw [hw] at h1
  simpa using h1

theorem onlySpaceWs_tail {c : Char} {rest : Str} (h : onlySpaceWs (c :: rest) = true) :
    onlySpaceWs rest = true := by
  simp only [onlySpaceWs, List.all_cons, Bool.and_eq_true] at h
  exact h.2

theorem noDbl_tail {c : Char} {l : Str} (h : noDbl (c :: l) = true) : noDbl l = true := by
  cases l with
  | nil => rfl
  | cons b t =>
    simp only [noDbl, Bool.and_eq_true] at h
    exact h.2

theorem noDbl_second {a b : Char} {t : Str} (h : noDbl (a :: b :: t) = true) (ha : a = ' ') :
    (b == ' ') = false := by
  simp only [noDbl, Bool.and_eq_true] at h
  rcases h with ⟨h1, _⟩
  subst ha
  simpa using h1

theorem noDbl_of_no_space : ∀ l : Str, (∀ c ∈ l, (c == ' ') = false) → noDbl l = true
  | [], _ => rfl
  | [_], _ => rfl
  | a :: b :: t, h => by
    have ha := h a (List.mem_cons_self a _)
    have hrec := noDbl_of_no_space (b :: t) (fun c hc => h c (List.mem_cons_of_mem a hc))
    simp [noDbl, ha, hrec]

theorem collapseWs_eq_self : ∀ l : Str, onlySpaceWs l = true → noDbl l = true →
    collapseWs l = l
  | [], _, _ => rfl
  | [c], h1, _ => by
    by_cases hc : isJsWs c = true
    · have := onlySpaceWs_head h1 hc
      subst this
      simp [collapseWs, hc]
    · simp [collapseWs, hc]
  | c :: d :: rest, h1, h2 => by
    have hrec := collapseWs_eq_self (d :: rest) (onlySpaceWs_tail h1) (noDbl_tail h2)
    by_cases hc : isJsWs c = true
    · have hcsp : c = ' ' := onlySpaceWs_head h1 hc
      have hdsp : (d == ' ') = false := noDbl_second h2 hcsp
      have hdws : isJsWs d = false := by
        by_cases hw : isJsWs d = true
        · have := onlySpaceWs_head (onlySpaceWs_tail h1) hw
          rw [this] at hdsp
          simp at hdsp
        · simpa using hw
      simp [collapseWs, hc, hdws, hrec, hcsp]
    · simp [collapseWs, hc, hrec]

theorem stripChars_eq_self (l : Str) (h : ∀ c ∈ l, keepChar c = true) : stripChars l = l :=
  List.filter_eq_self.mpr h

theorem stripChars_eq_nil (l : Str) (h : ∀ c ∈ l, keepChar c = false) : stripChars l = [] := by
  rw [stripChars, List.filter_eq_nil_iff]
  intro a ha
  simp [h a ha]

theorem replaceNl_eq_self : ∀ l : Str, (∀ c ∈ l, (c == '\n') = false) → replaceNl l = l
  | [], _ => rfl
  | c :: rest, h => by
    have hc := h c (List.mem_cons_self c rest)
    have ht := replaceNl_eq_self rest (fun d hd => h d (List.mem_cons_of_mem c hd))
    simp only [replaceNl, List.map_cons] at ht ⊢
    rw [hc, ht]
    simp

/-! ## Classifier fold lemmas -/

theorem foldl_hook_keep (proj : Hooks → Option Str) (pred : Str → Bool)
    (hstep : ∀ h line, proj (hookStep h line) =
      if pred (jsTrim line) && jsFalsyO (proj h) then some (jsTrim line) else proj h) :
    ∀ (lines : List Str) (h : Hooks) (v : Str), proj h = some v → v ≠ [] →
      proj (lines.foldl hookStep h) = some v := by
  intro lines
  induction lines with
  | nil => intro h v hv _; simpa using hv
  | cons l ls ih =>
    intro h v hv hne
    have hkeep : proj (hookStep h l) = some v := by
      rw [hstep, hv]
      have hfal : jsFalsyO (some v) = false := by
        simp only [jsFalsyO]
        exact beq_eq_false_iff_ne.mpr hne
      rw [hfal]
      simp
    exact ih (hookStep h l) v hkeep hne

theorem foldl_hook_first (proj : Hooks → Option Str) (pred : Str → Bool)
    (hstep : ∀ h line, proj (hookStep h line) =
      if pred (jsTrim line) && jsFalsyO (proj h) then some (jsTrim line) else proj h)
    (hpred : ∀ l, pred l = true → l ≠ []) :
    ∀ (lines : List Str) (h : Hooks), proj h = none →
      proj (lines.foldl hookStep h) = (lines.map jsTrim).find? pred := by
  intro lines
  induction lines with
  | nil => intro h hh; simpa using hh
  | cons l ls ih =>
    intro h hh
    by_cases hc : pred (jsTrim l) = true
    · have hone : proj (hookStep h l) = some (jsTrim l) := by
        rw [hstep, hh]
        simp [jsFalsyO, hc]
      have hfin := foldl_hook_keep proj pred hstep ls (hookStep h l) (jsTrim l) hone
        (hpred _ hc)
      simp only [List.foldl_cons, List.map_cons]
      rw [hfin, List.find?_cons_of_pos _ hc]
    · have hnone : proj (hookStep h l) = none := by
        rw [hstep, hh]
        simp [hc]
      simp only [List.foldl_cons, List.map_cons]
      rw [ih (hookStep h l) hnone, List.find?_cons_of_neg _ hc]

/-! ## Claim C1 -/

/-- Claim C1, corrected.  The classifier populates the statistic category
with the trimmed first substantive line (trimmed length over 10, as built in
generateEngagingHook) whose trimmed form contains a match of the regex
\d+%, and never with a later one; when no substantive line matches, the
category is absent.  The original claim quantified over all lines of the
content, but a matching line can be dropped by the substantive filter. -/
theorem c1_statistic_first (content : Str) :
    (hooksOf content).statistic =
      ((contentLines content).map jsTrim).find? hasDigitPercent := by
  have hstep : ∀ h line, (hookStep h line).statistic =
      if hasDigitPercent (jsTrim line) && jsFalsyO h.statistic then some (jsTrim line)
      else h.statistic := fun h line => rfl
  have hpred : ∀ l, hasDigitPercent l = true → l ≠ [] := by
    intro l hl
    cases l with
    | nil => exact absurd hl (by decide)
    | cons a t => exact List.cons_ne_nil a t
  exact foldl_hook_first _ _ hstep hpred (contentLines content) {} rfl

/-- Claim C1 fails as stated: the content consisting of the single line 1%
contains a substring matching \d+%, yet the statistic category is absent,
because the line has trimmed length at most 10 and is filtered out before
classification. -/
theorem c1_counterexample :
    hasDigitPercent "1%".data = true ∧ (hooksOf "1%".data).statistic = none := by decide

/-! ## Claim C4 -/

/-- Claim C4, corrected.  The classifier assigns a trimmed substantive line
to the strong category exactly when its length is strictly between 20 and
80 characters and it contains no question mark, taking the first such line;
in particular the category is absent when no substantive line qualifies.
The original claim used the inclusive interval [20, 80], but the code uses
strict comparisons, so lines of exactly 20 or exactly 80 characters are
excluded. -/
theorem c4_strong_first (content : Str) :
    (hooksOf content).strong = ((contentLines content).map jsTrim).find? strongPred := by
  have hstep : ∀ h line, (hookStep h line).strong =
      if strongPred (jsTrim line) && jsFalsyO h.strong then some (jsTrim line)
      else h.strong := fun h line => rfl
  have hpred : ∀ l, strongPred l = true → l ≠ [] := by
    intro l hl hnil
    subst hnil
    exact absurd hl (by decide)
  exact foldl_hook_first _ _ hstep hpred (contentLines content) {} rfl

/-- Claim C4 fails as stated: a single line of exactly 20 characters with
no question mark lies in the interval [20, 80], yet the strong category is
left absent, because the code requires strictly more than 20 characters. -/
theorem c4_counterexample :
    (hooksOf (List.replicate 20 'a')).strong = none ∧
    (jsTrim (List.replicate 20 'a')).length = 20 ∧
    (List.replicate 20 'a').contains '?' = false := by decide

/-! ## Claim C8 -/

/-- Claim C8, corrected.  For every non-empty input string whose cleaned
form (whitespace collapsed and trimmed, characters outside word characters,
space and the kept punctuation stripped) has length under 60,
formatForDisplay returns exactly the uppercase of that cleaned string.  The
original claim also covered the empty input string, but the empty string is
falsy and returns the placeholder instead. -/
theorem c8_short_uppercase (t : Str) (h1 : t ≠ [])
    (h2 : (cleanForDisplay t).length < 60) :
    formatForDisplay (some t) = upperStr (cleanForDisplay t) := by
  have hne : (t == []) = false := beq_eq_false_iff_ne.mpr h1
  simp [formatForDisplay, hne, h2]

/-- Claim C8 fails as stated on the empty input string: its cleaned form is
empty (length under 60), yet formatForDisplay returns the placeholder, not
the uppercase of the cleaned string. -/
theorem c8_counterexample :
    (cleanForDisplay []).length < 60 ∧
    formatForDisplay (some ([] : Str)) ≠ upperStr (cleanForDisplay []) := by decide

theorem c8_short_uppercase_witness :
    formatForDisplay (some "hi there".data) = upperStr (cleanForDisplay "hi there".data) :=
  c8_short_uppercase "hi there".data (by decide) (by decide)

/-! ## Claim C10 -/

/-- Claim C10, corrected.  formatForDisplay returns the placeholder when
its input is undefined or the empty string; for every non-empty input
consisting only of stripped characters (outside word characters, whitespace
and the kept punctuation, for example emojis) it returns the empty string
rather than the placeholder, and a support text equal to the empty string
is falsy, so the handler draws no support lines.  The original claim said
the placeholder is returned exactly when the input is undefined or empty,
but defined non-empty inputs can also format to the placeholder string. -/
theorem c10_placeholder_empty_support (t : Option Str) (s : Str)
    (ht : t = none ∨ t = some []) (hs1 : s ≠ [])
    (hs2 : ∀ c ∈ s, strippedChar c = true) :
    formatForDisplay t = placeholderStr ∧
    formatForDisplay (some s) = [] ∧
    supportBlockShown (formatForDisplay (some s)) = false := by
  have hkeep : ∀ c ∈ s, keepChar c = false := by
    intro c hc
    have := hs2 c hc
    simp only [strippedChar, Bool.not_eq_true'] at this
    exact this
  have hnws : ∀ c ∈ s, isJsWs c = false := by
    intro c hc
    by_cases h : isJsWs c = true
    · have : keepChar c = true := by simp [keepChar, h]
      rw [hkeep c hc] at this
      cases this
    · simpa using h
  have hnl : ∀ c ∈ s, (c == '\n') = false := by
    intro c hc
    by_cases h : (c == '\n') = true
    · have hcn : c = '\n' := eq_of_beq h
      subst hcn
      have := hnws '\n' hc
      simp [isJsWs] at this
    · simpa using h
  have hnsp : ∀ c ∈ s, (c == ' ') = false := by
    intro c hc
    by_cases h : (c == ' ') = true
    · have hcs : c = ' ' := eq_of_beq h
      subst hcs
      have := hnws ' ' hc
      simp [isJsWs] at this
    · simpa using h
  have hclean : cleanForDisplay s = [] := by
    rw [cleanForDisplay, replaceNl_eq_self s hnl,
      collapseWs_eq_self s (List.all_eq_true.mpr (fun c hc => by simp [hnws c hc]))
        (noDbl_of_no_space s hnsp),
      jsTrim_eq_self s (fun c hc => hnws c (List.mem_of_mem_head? (by rw [hc]; rfl)))
        (fun c hc => hnws c (mem_of_getLast?_eq hc)),
      stripChars_eq_nil s hkeep]
  have hmain : formatForDisplay (some s) = [] := by
    have hne : (s == []) = false := beq_eq_false_iff_ne.mpr hs1
    simp [formatForDisplay, hne, hclean, upperStr]
  refine ⟨?_, hmain, by rw [hmain]; rfl⟩
  rcases ht with rfl | rfl
  · rfl
  · rfl

/-- Claim C10 fails as stated: the defined, non-empty input string
professional insights formats to the placeholder string, so the placeholder
is not returned exactly when the input is undefined or empty. -/
theorem c10_counterexample :
    formatForDisplay (some "professional insights".data) = placeholderStr ∧
    "professional insights".data ≠ ([] : Str) := by decide

theorem c10_placeholder_empty_support_witness :
    formatForDisplay none = placeholderStr ∧
    formatForDisplay (some "~".data) = [] ∧
    supportBlockShown (formatForDisplay (some "~".data)) = false :=
  c10_placeholder_empty_support none "~".data (Or.inl rfl) (by decide) (by decide)

/-! ## Claim C6 -/

/-- Claim C6, confirmed.  For every request body in which background_url or
content is missing, the POST /overlay handler returns HTTP 400 with the
error payload, never a 500 and never a success response, and neither image
fetch nor any rendering happens for that request. -/
theorem c6_missing_fields (body : RequestBody) (bgFetch logoFetch : FetchOutcome)
    (h : body.background_url = none ∨ body.content = none) :
    overlayHandler body bgFetch logoFetch =
      { response := .badRequest missingMsg, backgroundFetched := false,
        logoDrawn := false, rendered := false, supportShown := false } := by
  have hfal : (jsFalsyO body.background_url || jsFalsyO body.content) = true := by
    rcases h with h | h <;> rw [h] <;> simp [jsFalsyO]
  simp [overlayHandler, hfal]

theorem c6_missing_fields_witness :
    overlayHandler ⟨none, some "hello world content".data, none, none, none⟩ .ok .ok =
      { response := .badRequest missingMsg, backgroundFetched := false,
        logoDrawn := false, rendered := false, supportShown := false } :=
  c6_missing_fields _ _ _ (Or.inl rfl)

/-! ## Claim C7 -/

/-- Does the response carry success:true, i.e. is it the 200 payload of
the endpoint rather than a 400 or 500 error payload. -/
def isSuccess : OverlayResponse → Bool
  | .ok _ _ => true
  | .badRequest _ => false
  | .serverError _ => false

/-- When the platform is not the name of an inherited Object.prototype
member, the generator dispatch yields a hook record: an own generator for
the four platform keys and the linkedin fallback for every other value. -/
theorem gEH_content_of_benign (p t : Option Str) (c : Str) (e : Option Str)
    (hproto : ∀ k ∈ protoKeys, p ≠ some k) :
    ∃ hook, generateEngagingHook p t c e = HookResult.content hook := by
  cases p with
  | none => exact ⟨_, rfl⟩
  | some s =>
    cases hf : generatorsTable.find? (fun q => q.1 == s) with
    | some q =>
      exact ⟨q.2 (hooksOf c) c e, by simp [generateEngagingHook, optGet, tableGet, hf]⟩
    | none =>
      have hsp : s ∉ protoKeys := fun hmem => hproto s hmem rfl
      exact ⟨linkedinGen (hooksOf c) c e,
        by simp [generateEngagingHook, optGet, tableGet, hf, hsp]⟩

/-- Claim C7, corrected.  For every request whose required fields are
present so that the background fetch runs and succeeds, and whose platform
is not the name of an inherited Object.prototype member, a failing logo
fetch (non-200, timeout or bad bytes) never fails the overall request: the
logo is simply not drawn, composition continues and the response still has
success:true.  The original unconditional claim fails for platform values
such as toString: there hook generation finds the inherited member,
rendering throws, and the request answers 500 whatever the logo fetch did. -/
theorem c7_logo_failure_nonfatal (body : RequestBody) (e : Str)
    (h1 : jsFalsyO body.background_url = false) (h2 : jsFalsyO body.content = false)
    (h3 : ∀ k ∈ protoKeys, body.platform ≠ some k) :
    isSuccess (overlayHandler body .ok (.failed e)).response = true ∧
    (overlayHandler body .ok (.failed e)).logoDrawn = false ∧
    (overlayHandler body .ok (.failed e)).rendered = true := by
  obtain ⟨hook, hgen⟩ := gEH_content_of_benign body.platform body.title
    (body.content.getD []) body.excerpt h3
  refine ⟨?_, ?_, ?_⟩ <;> simp [overlayHandler, h1, h2, hgen, isSuccess]

theorem c7_logo_failure_nonfatal_witness :
    isSuccess (overlayHandler ⟨some "http://x/bg.png".data, some "some content".data,
        none, none, none⟩ .ok (.failed "timeout".data)).response = true ∧
    (overlayHandler ⟨some "http://x/bg.png".data, some "some content".data, none, none, none⟩
        .ok (.failed "timeout".data)).logoDrawn = false ∧
    (overlayHandler ⟨some "http://x/bg.png".data, some "some content".data, none, none, none⟩
        .ok (.failed "timeout".data)).rendered = true :=
  c7_logo_failure_nonfatal _ "timeout".data (by decide) (by decide) (by decide)

/-- Claim C7 fails as stated: with both required fields present, a
successful background fetch and platform toString, the failing logo fetch
is indeed swallowed, but generators[platform] finds the inherited
Object.prototype member, rendering its result throws, and the request
answers 500 — the response does not have success:true. -/
theorem c7_counterexample :
    (overlayHandler ⟨some "http://x/bg.png".data, some "some content".data,
        some "toString".data, none, none⟩ .ok (.failed "timeout".data)).response =
      .serverError hookThrowMsg ∧
    isSuccess (overlayHandler ⟨some "http://x/bg.png".data, some "some content".data,
        some "toString".data, none, none⟩ .ok (.failed "timeout".data)).response = false := by
  decide

/-! ## Claim C5 -/

/-- A key outside the platform names of a table finds no own property. -/
theorem find?_none_of_keys {α : Type} (tbl : List (Str × α)) (s : Str)
    (hk : ∀ q ∈ tbl, q.1 ∈ platformKeys)
    (hp : ∀ k ∈ platformKeys, s ≠ k) :
    tbl.find? (fun q => q.1 == s) = none := by
  rw [List.find?_eq_none]
  intro x hx hbeq
  have hxs : x.1 = s := by simpa using hbeq
  exact hp x.1 (hk x hx) hxs.symm

/-- A key (or undefined) that is neither a platform name nor an inherited
Object.prototype member name reads undefined from every style table. -/
theorem optGet_missing {α : Type} (tbl : List (Str × α)) (p : Option Str)
    (hk : ∀ q ∈ tbl, q.1 ∈ platformKeys)
    (hp : ∀ k ∈ platformKeys, p ≠ some k)
    (hproto : ∀ k ∈ protoKeys, p ≠ some k) :
    optGet tbl p = JsProp.missing := by
  cases p with
  | none => rfl
  | some s =>
    have hfind : tbl.find? (fun q => q.1 == s) = none :=
      find?_none_of_keys tbl s hk (fun k hkm hsk => hp k hkm (by rw [hsk]))
    have hsp : s ∉ protoKeys := fun hmem => hproto s hmem rfl
    simp [optGet, tableGet, hfind, hsp]

/-- Claim C5, corrected.  For every platform value (undefined included)
that is neither one of linkedin, twitter, instagram and facebook nor the
name of an inherited Object.prototype member, the service falls back to
the linkedin font, line height, support font, text color and hook
generator without throwing.  The original claim fails for platform values
naming inherited members such as toString: the idiom tbl[platform] ||
fallback finds the truthy inherited member instead of falling back, so the
style getters yield that member rather than linkedin's values, and the
hook dispatch calls it, which throws during rendering instead of running
linkedin's generator. -/
theorem c5_unknown_platform (p t : Option Str) (c : Str) (e : Option Str)
    (h1 : p ≠ some "linkedin".data) (h2 : p ≠ some "twitter".data)
    (h3 : p ≠ some "instagram".data) (h4 : p ≠ some "facebook".data)
    (h5 : ∀ k ∈ protoKeys, p ≠ some k) :
    getMainFont p = getMainFont (some "linkedin".data) ∧
    getMainLineHeight p = getMainLineHeight (some "linkedin".data) ∧
    getSupportFont p = getSupportFont (some "linkedin".data) ∧
    getMainTextColor p = getMainTextColor (some "linkedin".data) ∧
    generateEngagingHook p t c e = generateEngagingHook (some "linkedin".data) t c e := by
  have hp : ∀ k ∈ platformKeys, p ≠ some k := by
    intro k hk
    simp only [platformKeys, List.mem_cons, List.not_mem_nil, or_false,
      List.mem_singleton] at hk
    rcases hk with rfl | rfl | rfl | rfl
    · exact h1
    · exact h2
    · exact h3
    · exact h4
  refine ⟨?_, ?_, ?_, ?_, ?_⟩
  · rw [getMainFont, optGet_missing fontsMain p (by decide) hp h5]
    decide
  · rw [getMainLineHeight, optGet_missing heightsMain p (by decide) hp h5]
    decide
  · rw [getSupportFont, optGet_missing fontsSupport p (by decide) hp h5]
    decide
  · rw [getMainTextColor, optGet_missing colorsMain p (by decide) hp h5]
    decide
  · have hkgen : ∀ q ∈ generatorsTable, q.1 ∈ platformKeys := by
      intro q hq
      simp only [generatorsTable, List.mem_cons, List.not_mem_nil, or_false] at hq
      rcases hq with rfl | rfl | rfl | rfl <;> simp [platformKeys]
    have hgen : optGet generatorsTable p = JsProp.missing :=
      optGet_missing generatorsTable p hkgen hp h5
    have hlg : optGet generatorsTable (some "linkedin".data) = JsProp.own linkedinGen := rfl
    simp only [generateEngagingHook, hgen, hlg]

theorem c5_unknown_platform_witness :
    getMainFont (some "tiktok".data) = getMainFont (some "linkedin".data) ∧
    getMainLineHeight (some "tiktok".data) = getMainLineHeight (some "linkedin".data) ∧
    getSupportFont (some "tiktok".data) = getSupportFont (some "linkedin".data) ∧
    getMainTextColor (some "tiktok".data) = getMainTextColor (some "linkedin".data) ∧
    generateEngagingHook (some "tiktok".data) none "abc".data none =
      generateEngagingHook (some "linkedin".data) none "abc".data none :=
  c5_unknown_platform (some "tiktok".data) none "abc".data none
    (by decide) (by decide) (by decide) (by decide) (by decide)

/-- Claim C5 fails as stated: toString is not one of the four platform
names, yet the main-font lookup yields the inherited Object.prototype
member rather than linkedin's font, and the hook dispatch calls that
member and produces no hook record instead of running linkedin's
generator. -/
theorem c5_counterexample :
    getMainFont (some "toString".data) ≠ getMainFont (some "linkedin".data) ∧
    generateEngagingHook (some "toString".data) none "some content".data none ≠
      generateEngagingHook (some "linkedin".data) none "some content".data none ∧
    generateEngagingHook (some "toString".data) none "some content".data none =
      .protoCall "toString".data := by decide

/-! ## Claim C9 -/

theorem foldl_phantoms (lines : List Str) : ∀ h : Hooks,
    (lines.foldl hookStep h).controversial = h.controversial ∧
    (lines.foldl hookStep h).revelation = h.revelation ∧
    (lines.foldl hookStep h).aspirational = h.aspirational ∧
    (lines.foldl hookStep h).benefit = h.benefit ∧
    (lines.foldl hookStep h).story = h.story ∧
    (lines.foldl hookStep h).solution = h.solution := by
  induction lines with
  | nil => intro h; exact ⟨rfl, rfl, rfl, rfl, rfl, rfl⟩
  | cons l ls ih => intro h; exact ih (hookStep h l)

theorem twitterGen_eq_simplified (hooks : Hooks) (c : Str) (e : Option Str)
    (h1 : hooks.controversial = none) (h2 : hooks.revelation = none) :
    twitterGen hooks c e = twitterGenSimplified hooks c e := by
  simp [twitterGen, twitterGenSimplified, h1, h2, jsOrStr]

theorem instagramGen_eq_simplified (hooks : Hooks) (c : Str) (e : Option Str)
    (h1 : hooks.aspirational = none) (h2 : hooks.benefit = none) :
    instagramGen hooks c e = instagramGenSimplified hooks c e := by
  simp [instagramGen, instagramGenSimplified, h1, h2, jsOrStr]

theorem facebookGen_eq_simplified (hooks : Hooks) (c : Str) (e : Option Str)
    (h1 : hooks.story = none) (h2 : hooks.solution = none) :
    facebookGen hooks c e = facebookGenSimplified hooks c e := by
  simp [facebookGen, facebookGenSimplified, h1, h2, jsOrStr]

/-- Claim C9, confirmed.  The classifier never populates the controversial,
revelation, aspirational, benefit, story and solution categories, and
consequently generateEngagingHook is extensionally equal to the same
selector with those fallback steps removed. -/
theorem c9_phantom_categories :
    (∀ lines : List Str,
      (extractContentHooks lines).controversial = none ∧
      (extractContentHooks lines).revelation = none ∧
      (extractContentHooks lines).aspirational = none ∧
      (extractContentHooks lines).benefit = none ∧
      (extractContentHooks lines).story = none ∧
      (extractContentHooks lines).solution = none) ∧
    (∀ (p t : Option Str) (c : Str) (e : Option Str),
      generateEngagingHook p t c e = generateEngagingHookSimplified p t c e) := by
  constructor
  · intro lines
    exact foldl_phantoms lines {}
  · intro p t c e
    have hph := foldl_phantoms (contentLines c) {}
    cases p with
    | none => rfl
    | some s =>
      by_cases hl : s = "linkedin".data
      · subst hl; rfl
      by_cases htw : s = "twitter".data
      · subst htw
        show HookResult.content (twitterGen (hooksOf c) c e) =
          HookResult.content (twitterGenSimplified (hooksOf c) c e)
        exact congrArg HookResult.content (twitterGen_eq_simplified _ c e hph.1 hph.2.1)
      by_cases hin : s = "instagram".data
      · subst hin
        show HookResult.content (instagramGen (hooksOf c) c e) =
          HookResult.content (instagramGenSimplified (hooksOf c) c e)
        exact congrArg HookResult.content
          (instagramGen_eq_simplified _ c e hph.2.2.1 hph.2.2.2.1)
      by_cases hfb : s = "facebook".data
      · subst hfb
        show HookResult.content (facebookGen (hooksOf c) c e) =
          HookResult.content (facebookGenSimplified (hooksOf c) c e)
        exact congrArg HookResult.content
          (facebookGen_eq_simplified _ c e hph.2.2.2.2.1 hph.2.2.2.2.2)
      · have hps : ∀ k ∈ platformKeys, s ≠ k := by
          intro k hk
          simp only [platformKeys, List.mem_cons, List.not_mem_nil, or_false,
            List.mem_singleton] at hk
          rcases hk with rfl | rfl | rfl | rfl
          · exact hl
          · exact htw
          · exact hin
          · exact hfb
        have hg1 : generatorsTable.find? (fun q => q.1 == s) = none := by
          refine find?_none_of_keys generatorsTable s ?_ hps
          intro q hq
          simp only [generatorsTable, List.mem_cons, List.not_mem_nil, or_false] at hq
          rcases hq with rfl | rfl | rfl | rfl <;> simp [platformKeys]
        have hg2 : generatorsTableSimplified.find? (fun q => q.1 == s) = none := by
          refine find?_none_of_keys generatorsTableSimplified s ?_ hps
          intro q hq
          simp only [generatorsTableSimplified, List.mem_cons, List.not_mem_nil,
            or_false] at hq
          rcases hq with rfl | rfl | rfl | rfl <;> simp [platformKeys]
        by_cases hsp : s ∈ protoKeys
        · simp only [generateEngagingHook, generateEngagingHookSimplified, optGet,
            tableGet, hg1, hg2, if_pos hsp]
        · simp only [generateEngagingHook, generateEngagingHookSimplified, optGet,
            tableGet, hg1, hg2, if_neg hsp]

/-! ## Character-level facts about ASCII case mapping -/

theorem casePairs_facts : ∀ q ∈ casePairs,
    isWordChar q.1 = true ∧ isWordChar q.2 = true ∧
    keepChar q.1 = true ∧ keepChar q.2 = true ∧
    isJsWs q.1 = false ∧ isJsWs q.2 = false ∧
    (q.1 == ' ') = false ∧ (q.2 == ' ') = false ∧
    casePairs.find? (fun p => p.1 == q.2) = none := by decide

theorem jsUpChar_eq_or (c : Char) :
    jsUpChar c = c ∨ ∃ q ∈ casePairs, q.1 = c ∧ jsUpChar c = q.2 := by
  rw [jsUpChar]
  cases hf : casePairs.find? (fun p => p.1 == c) with
  | none => exact Or.inl rfl
  | some q =>
    refine Or.inr ⟨q, List.mem_of_find?_eq_some hf, ?_, rfl⟩
    have := List.find?_some hf
    simpa using this

theorem isWordChar_up (c : Char) : isWordChar (jsUpChar c) = isWordChar c := by
  rcases jsUpChar_eq_or c with h | ⟨q, hq, hc, hup⟩
  · rw [h]
  · obtain ⟨f1, f2, _⟩ := casePairs_facts q hq
    rw [hup, ← hc, f1, f2]

theorem isJsWs_up (c : Char) : isJsWs (jsUpChar c) = isJsWs c := by
  rcases jsUpChar_eq_or c with h | ⟨q, hq, hc, hup⟩
  · rw [h]
  · obtain ⟨_, _, _, _, f5, f6, _⟩ := casePairs_facts q hq
    rw [hup, ← hc, f5, f6]

theorem keepChar_up (c : Char) : keepChar (jsUpChar c) = keepChar c := by
  rcases jsUpChar_eq_or c with h | ⟨q, hq, hc, hup⟩
  · rw [h]
  · obtain ⟨_, _, f3, f4, _⟩ := casePairs_facts q hq
    rw [hup, ← hc, f3, f4]

theorem space_up (c : Char) : (jsUpChar c == ' ') = (c == ' ') := by
  rcases jsUpChar_eq_or c with h | ⟨q, hq, hc, hup⟩
  · rw [h]
  · obtain ⟨_, _, _, _, _, _, f7, f8, _⟩ := casePairs_facts q hq
    rw [hup, ← hc, f7, f8]

theorem jsUpChar_idem (c : Char) : jsUpChar (jsUpChar c) = jsUpChar c := by
  rcases jsUpChar_eq_or c with h | ⟨q, hq, _, hup⟩
  · rw [h, h]
  · obtain ⟨_, _, _, _, _, _, _, _, f9⟩ := casePairs_facts q hq
    rw [hup]
    rw [jsUpChar, f9]

theorem upperStr_idem (l : Str) : upperStr (upperStr l) = upperStr l := by
  simp only [upperStr, List.map_map]
  exact List.map_congr_left (fun a _ => jsUpChar_idem a)

/-! ## Shape-transfer lemmas (strings equal after uppercasing) -/

theorem up_all_transfer (P : Char → Bool) (hP : ∀ c, P (jsUpChar c) = P c) :
    ∀ l1 l2 : Str, l1.map jsUpChar = l2.map jsUpChar → l1.all P = l2.all P := by
  intro l1
  induction l1 with
  | nil =>
    intro l2 h
    cases l2 with
    | nil => rfl
    | cons b t => simp at h
  | cons a t ih =>
    intro l2 h
    cases l2 with
    | nil => simp at h
    | cons b t2 =>
      simp only [List.map_cons, List.cons.injEq] at h
      rcases h with ⟨hab, ht⟩
      have hPa : P a = P b := by rw [← hP a, ← hP b, hab]
      simp [List.all_cons, hPa, ih t2 ht]

theorem up_length_transfer (l1 l2 : Str) (h : l1.map jsUpChar = l2.map jsUpChar) :
    l1.length = l2.length := by
  have := congrArg List.length h
  simpa using this

theorem up_noDbl_transfer (l1 : Str) : ∀ l2 : Str, l1.map jsUpChar = l2.map jsUpChar →
    noDbl l1 = noDbl l2 := by
  induction l1 with
  | nil =>
    intro l2 h
    cases l2 with
    | nil => rfl
    | cons b t => simp at h
  | cons a t ih =>
    intro l2 h
    cases l2 with
    | nil => simp at h
    | cons b t2 =>
      simp only [List.map_cons, List.cons.injEq] at h
      rcases h with ⟨hab, ht⟩
      cases t with
      | nil =>
        cases t2 with
        | nil => rfl
        | cons c u => simp at ht
      | cons c u =>
        cases t2 with
        | nil => simp at ht
        | cons d v =>
          have hrec := ih (d :: v) ht
          simp only [List.map_cons, List.cons.injEq] at ht
          have hsp1 : (a == ' ') = (b == ' ') := by rw [← space_up a, ← space_up b, hab]
          have hsp2 : (c == ' ') = (d == ' ') := by rw [← space_up c, ← space_up d, ht.1]
          simp [noDbl, hsp1, hsp2, hrec]

theorem up_headNotSpace_transfer (l1 l2 : Str) (h : l1.map jsUpChar = l2.map jsUpChar) :
    headNotSpace l1 = headNotSpace l2 := by
  cases l1 with
  | nil =>
    cases l2 with
    | nil => rfl
    | cons b t => simp at h
  | cons a t =>
    cases l2 with
    | nil => simp at h
    | cons b t2 =>
      simp only [List.map_cons, List.cons.injEq] at h
      have hsp : (a == ' ') = (b == ' ') := by rw [← space_up a, ← space_up b, h.1]
      simp [headNotSpace, hsp]

theorem up_wordy_transfer (l1 l2 : Str) (h : l1.map jsUpChar = l2.map jsUpChar) :
    wordy l1 = wordy l2 := by
  have hrev : l1.reverse.map jsUpChar = l2.reverse.map jsUpChar := by
    rw [List.map_reverse, List.map_reverse, h]
  have h1 := up_all_transfer (fun c => !isJsWs c || c == ' ')
    (fun c => by
      show (!isJsWs (jsUpChar c) || (jsUpChar c == ' ')) = (!isJsWs c || (c == ' '))
      rw [isJsWs_up, space_up]) l1 l2 h
  simp only [wordy, onlySpaceWs]
  rw [h1, up_noDbl_transfer l1 l2 h, up_headNotSpace_transfer l1 l2 h,
    up_headNotSpace_transfer l1.reverse l2.reverse hrev]

theorem isWordOpt_up (o : Option Char) : isWordOpt (o.map jsUpChar) = isWordOpt o := by
  cases o with
  | none => rfl
  | some c => simp [isWordOpt, isWordChar_up]

/-! ## Keyword replacement lemmas -/

theorem keywordsKW_pos : ∀ k ∈ keywordsKW, 0 < k.length := by decide

theorem findKeyword_spec {l k : Str} (h : findKeyword l = some k) :
    k ∈ keywordsKW ∧ matchesCI k l = true ∧ boundaryAfterOK l k.length = true := by
  refine ⟨List.mem_of_find?_eq_some h, ?_, ?_⟩
  · have hp := List.find?_some h
    simp only [Bool.and_eq_true] at hp
    exact hp.1
  · have hp := List.find?_some h
    simp only [Bool.and_eq_true] at hp
    exact hp.2

theorem matchesCI_le : ∀ k l : Str, matchesCI k l = true → k.length ≤ l.length
  | [], _, _ => Nat.zero_le _
  | _ :: _, [], h => absurd h (by simp [matchesCI])
  | kc :: ks, c :: cs, h => by
    simp only [matchesCI, Bool.and_eq_true] at h
    exact Nat.succ_le_succ (matchesCI_le ks cs h.2)

theorem matchesCI_congr : ∀ (k l1 l2 : Str), l1.map jsUpChar = l2.map jsUpChar →
    matchesCI k l1 = matchesCI k l2
  | [], _, _, _ => rfl
  | kc :: ks, l1, l2, h => by
    cases l1 with
    | nil =>
      cases l2 with
      | nil => rfl
      | cons b t => simp at h
    | cons a t =>
      cases l2 with
      | nil => simp at h
      | cons b t2 =>
        simp only [List.map_cons, List.cons.injEq] at h
        have h1 : (jsUpChar a == kc) = (jsUpChar b == kc) := by rw [h.1]
        simp [matchesCI, h1, matchesCI_congr ks t t2 h.2]

theorem boundaryAfterOK_congr (l1 l2 : Str) (n : Nat)
    (h : l1.map jsUpChar = l2.map jsUpChar) :
    boundaryAfterOK l1 n = boundaryAfterOK l2 n := by
  have hd : (l1.drop n).map jsUpChar = (l2.drop n).map jsUpChar := by
    rw [List.map_drop, List.map_drop, h]
  simp only [boundaryAfterOK]
  cases h1 : l1.drop n with
  | nil =>
    cases h2 : l2.drop n with
    | nil => rfl
    | cons b t => rw [h1, h2] at hd; simp at hd
  | cons a t =>
    cases h2 : l2.drop n with
    | nil => rw [h1, h2] at hd; simp at hd
    | cons b t2 =>
      rw [h1, h2] at hd
      simp only [List.map_cons, List.cons.injEq] at hd
      have hab : isWordChar a = isWordChar b := by
        rw [← isWordChar_up a, ← isWordChar_up b, hd.1]
      simp [hab]

theorem find?_congr {α : Type} (p q : α → Bool) :
    ∀ L : List α, (∀ a ∈ L, p a = q a) → L.find? p = L.find? q
  | [], _ => rfl
  | a :: t, h => by
    have ha := h a (List.mem_cons_self a t)
    by_cases hp : p a = true
    · rw [List.find?_cons_of_pos t hp, List.find?_cons_of_pos t (by rw [← ha]; exact hp)]
    · rw [List.find?_cons_of_neg t hp, List.find?_cons_of_neg t (by rw [← ha]; exact hp),
        find?_congr p q t (fun b hb => h b (List.mem_cons_of_mem a hb))]

theorem findKeyword_congr (l1 l2 : Str) (h : l1.map jsUpChar = l2.map jsUpChar) :
    findKeyword l1 = findKeyword l2 := by
  rw [findKeyword, findKeyword]
  apply find?_congr
  intro k _
  show (matchesCI k l1 && boundaryAfterOK l1 k.length) =
    (matchesCI k l2 && boundaryAfterOK l2 k.length)
  rw [matchesCI_congr k l1 l2 h, boundaryAfterOK_congr l1 l2 k.length h]

theorem kwReplaceAux_cons_word (f : Nat) (prev : Option Char) (c : Char) (rest : Str)
    (hw : isWordOpt prev = true) :
    kwReplaceAux (f + 1) prev (c :: rest) = c :: kwReplaceAux f (some c) rest := by
  simp only [kwReplaceAux, hw, if_true]

theorem kwReplaceAux_cons_none (f : Nat) (prev : Option Char) (c : Char) (rest : Str)
    (hw : isWordOpt prev = false) (hk : findKeyword (c :: rest) = none) :
    kwReplaceAux (f + 1) prev (c :: rest) = c :: kwReplaceAux f (some c) rest := by
  simp only [kwReplaceAux, hw, Bool.false_eq_true, if_false, hk]

theorem kwReplaceAux_cons_match (f : Nat) (prev : Option Char) (c : Char) (rest : Str)
    (hw : isWordOpt prev = false) {k : Str} (hk : findKeyword (c :: rest) = some k) :
    kwReplaceAux (f + 1) prev (c :: rest) =
      upperStr ((c :: rest).take k.length) ++
        kwReplaceAux f ((c :: rest).take k.length).getLast? ((c :: rest).drop k.length) := by
  simp only [kwReplaceAux, hw, Bool.false_eq_true, if_false, hk]

theorem kwReplaceAux_shape : ∀ (fuel : Nat) (prev : Option Char) (l : Str),
    (kwReplaceAux fuel prev l).map jsUpChar = l.map jsUpChar
  | 0, _, _ => rfl
  | _ + 1, _, [] => rfl
  | fuel + 1, prev, c :: rest => by
    by_cases hw : isWordOpt prev = true
    · rw [kwReplaceAux_cons_word fuel prev c rest hw]
      simp only [List.map_cons]
      rw [kwReplaceAux_shape fuel (some c) rest]
    · have hw' : isWordOpt prev = false := by simpa using hw
      cases hf : findKeyword (c :: rest) with
      | none =>
        rw [kwReplaceAux_cons_none fuel prev c rest hw' hf]
        simp only [List.map_cons]
        rw [kwReplaceAux_shape fuel (some c) rest]
      | some k =>
        rw [kwReplaceAux_cons_match fuel prev c rest hw' hf]
        rw [List.map_append, kwReplaceAux_shape fuel _ _]
        have h1 : List.map jsUpChar (upperStr ((c :: rest).take k.length)) =
            List.map jsUpChar ((c :: rest).take k.length) := upperStr_idem _
        rw [h1, ← List.map_append, List.take_append_drop]

theorem kwReplaceAux_fuel : ∀ (f g : Nat) (prev : Option Char) (l : Str),
    l.length ≤ f → l.length ≤ g → kwReplaceAux f prev l = kwReplaceAux g prev l
  | f, g, _, [], _, _ => by cases f <;> cases g <;> rfl
  | 0, _, _, _ :: _, hf, _ => absurd hf (by simp)
  | _ + 1, 0, _, _ :: _, _, hg => absurd hg (by simp)
  | f + 1, g + 1, prev, c :: rest, hf, hg => by
    have hf' : rest.length + 1 ≤ f + 1 := by simpa using hf
    have hg' : rest.length + 1 ≤ g + 1 := by simpa using hg
    have hfr : rest.length ≤ f := by omega
    have hgr : rest.length ≤ g := by omega
    by_cases hw : isWordOpt prev = true
    · rw [kwReplaceAux_cons_word f prev c rest hw, kwReplaceAux_cons_word g prev c rest hw,
        kwReplaceAux_fuel f g (some c) rest hfr hgr]
    · have hw' : isWordOpt prev = false := by simpa using hw
      cases hk : findKeyword (c :: rest) with
      | none =>
        rw [kwReplaceAux_cons_none f prev c rest hw' hk,
          kwReplaceAux_cons_none g prev c rest hw' hk,
          kwReplaceAux_fuel f g (some c) rest hfr hgr]
      | some k =>
        have hkpos : 0 < k.length := keywordsKW_pos k (findKeyword_spec hk).1
        have hdl : ((c :: rest).drop k.length).length ≤ f := by
          rw [List.length_drop]
          simp only [List.length_cons]
          omega
        have hdg : ((c :: rest).drop k.length).length ≤ g := by
          rw [List.length_drop]
          simp only [List.length_cons]
          omega
        rw [kwReplaceAux_cons_match f prev c rest hw' hk,
          kwReplaceAux_cons_match g prev c rest hw' hk,
          kwReplaceAux_fuel f g _ _ hdl hdg]

theorem kwReplaceAux_idem : ∀ (f : Nat) (prev1 prev2 : Option Char) (l : Str),
    l.length ≤ f → isWordOpt prev1 = isWordOpt prev2 →
    kwReplaceAux f prev2 (kwReplaceAux f prev1 l) = kwReplaceAux f prev1 l
  | 0, _, _, l, _, _ => rfl
  | _ + 1, _, _, [], _, _ => rfl
  | f + 1, prev1, prev2, c :: rest, hf, hprev => by
    have hf' : rest.length + 1 ≤ f + 1 := by simpa using hf
    have hfr : rest.length ≤ f := by omega
    by_cases hw1 : isWordOpt prev1 = true
    · have hw2 : isWordOpt prev2 = true := by rw [← hprev]; exact hw1
      rw [kwReplaceAux_cons_word f prev1 c rest hw1,
        kwReplaceAux_cons_word f prev2 c (kwReplaceAux f (some c) rest) hw2,
        kwReplaceAux_idem f (some c) (some c) rest hfr rfl]
    · have hw1' : isWordOpt prev1 = false := by simpa using hw1
      have hw2' : isWordOpt prev2 = false := by rw [← hprev]; exact hw1'
      cases hk : findKeyword (c :: rest) with
      | none =>
        rw [kwReplaceAux_cons_none f prev1 c rest hw1' hk]
        have hk2 : findKeyword (c :: kwReplaceAux f (some c) rest) = none := by
          rw [findKeyword_congr (c :: kwReplaceAux f (some c) rest) (c :: rest) (by
            simp only [List.map_cons]
            rw [kwReplaceAux_shape f (some c) rest])]
          exact hk
        rw [kwReplaceAux_cons_none f prev2 c (kwReplaceAux f (some c) rest) hw2' hk2,
          kwReplaceAux_idem f (some c) (some c) rest hfr rfl]
      | some k =>
        obtain ⟨hkm, hmci, _⟩ := findKeyword_spec hk
        have hkpos : 0 < k.length := keywordsKW_pos k hkm
        have hkle : k.length ≤ (c :: rest).length := matchesCI_le k (c :: rest) hmci
        have hdlen : ((c :: rest).drop k.length).length ≤ f := by
          rw [List.length_drop]
          simp only [List.length_cons]
          omega
        rw [kwReplaceAux_cons_match f prev1 c rest hw1' hk]
        obtain ⟨m, hm⟩ : ∃ m, k.length = m + 1 := ⟨k.length - 1, by omega⟩
        -- abbreviate the recursive tail
        generalize hT : kwReplaceAux f ((c :: rest).take k.length).getLast?
          ((c :: rest).drop k.length) = T
        have hTsh : T.map jsUpChar = ((c :: rest).drop k.length).map jsUpChar := by
          rw [← hT]
          exact kwReplaceAux_shape f _ _
        have hTlen : T.length = ((c :: rest).drop k.length).length := by
          have := congrArg List.length hTsh
          simpa using this
        -- cons shape of the replaced prefix
        have hcons : upperStr ((c :: rest).take k.length) ++ T =
            jsUpChar c :: (upperStr (List.take m rest) ++ T) := by
          rw [hm, List.take_succ_cons]
          simp [upperStr, List.cons_append]
        rw [hcons]
        -- the second pass sees the same keyword
        have hshape2 : (jsUpChar c :: (upperStr (List.take m rest) ++ T)).map jsUpChar =
            (c :: rest).map jsUpChar := by
          simp only [List.map_cons, List.map_append]
          rw [jsUpChar_idem]
          have hCsh : List.map jsUpChar (upperStr (List.take m rest)) =
              List.map jsUpChar (List.take m rest) := upperStr_idem _
          rw [hCsh, hTsh, hm, List.drop_succ_cons, ← List.map_append,
            List.take_append_drop]
        have hk2 : findKeyword (jsUpChar c :: (upperStr (List.take m rest) ++ T)) = some k := by
          rw [findKeyword_congr _ (c :: rest) hshape2]
          exact hk
        rw [kwReplaceAux_cons_match f prev2 _ _ hw2' hk2]
        -- fold the cons shape back into an append of the replaced prefix and T
        rw [← hcons]
        have hClen : (upperStr ((c :: rest).take k.length)).length = k.length := by
          rw [upperStr, List.length_map, List.length_take]
          exact Nat.min_eq_left hkle
        have htake : (upperStr ((c :: rest).take k.length) ++ T).take k.length =
            upperStr ((c :: rest).take k.length) := List.take_left' hClen
        have hdrop2 : (upperStr ((c :: rest).take k.length) ++ T).drop k.length = T :=
          List.drop_left' hClen
        rw [htake, hdrop2]
        have hupC : upperStr (upperStr ((c :: rest).take k.length)) =
            upperStr ((c :: rest).take k.length) := upperStr_idem _
        rw [hupC]
        have hlast : isWordOpt (upperStr ((c :: rest).take k.length)).getLast? =
            isWordOpt ((c :: rest).take k.length).getLast? := by
          rw [upperStr, List.getLast?_map]
          exact isWordOpt_up _
        have hfin : kwReplaceAux f (upperStr ((c :: rest).take k.length)).getLast? T = T := by
          rw [← hT]
          exact kwReplaceAux_idem f ((c :: rest).take k.length).getLast?
            (upperStr ((c :: rest).take k.length)).getLast?
            ((c :: rest).drop k.length) hdlen (by rw [hlast])
        rw [hfin]

/-! ## Cleanup pipeline identity on well-shaped strings -/

theorem wordy_parts {l : Str} (hw : wordy l = true) :
    onlySpaceWs l = true ∧ noDbl l = true ∧ headNotSpace l = true ∧
      headNotSpace l.reverse = true := by
  have h := hw
  simp only [wordy, Bool.and_eq_true] at h
  exact ⟨h.1.1.1, h.1.1.2, h.1.2, h.2⟩

theorem head_not_ws_of {l : Str} (h1 : onlySpaceWs l = true) (h3 : headNotSpace l = true) :
    ∀ c, l.head? = some c → isJsWs c = false := by
  intro c hc
  cases l with
  | nil => cases hc
  | cons a t =>
    simp only [List.head?_cons, Option.some.injEq] at hc
    subst hc
    have hsp : (a == ' ') = false := by simpa [headNotSpace] using h3
    by_cases hws : isJsWs a = true
    · have := onlySpaceWs_head h1 hws
      rw [this] at hsp
      simp at hsp
    · simpa using hws

theorem last_not_ws_of {l : Str} (h1 : onlySpaceWs l = true)
    (h4 : headNotSpace l.reverse = true) :
    ∀ c, l.getLast? = some c → isJsWs c = false := by
  intro c hc
  have hrev : l.reverse.head? = some c := by rwa [List.head?_reverse]
  have h1r : onlySpaceWs l.reverse = true := by
    simp only [onlySpaceWs, List.all_eq_true] at h1 ⊢
    intro x hx
    exact h1 x (List.mem_reverse.mp hx)
  exact head_not_ws_of h1r h4 c hrev

theorem clean_eq_self_of_wordy (l : Str) (hw : wordy l = true)
    (hk : ∀ c ∈ l, keepChar c = true) : cleanForDisplay l = l := by
  obtain ⟨h1, h2, h3, h4⟩ := wordy_parts hw
  have hnl : ∀ c ∈ l, (c == '\n') = false := by
    intro c hc
    by_cases h : (c == '\n') = true
    · have hcn : c = '\n' := eq_of_beq h
      subst hcn
      have := List.all_eq_true.mp h1 '\n' hc
      exact absurd this (by decide)
    · simpa using h
  rw [cleanForDisplay, replaceNl_eq_self l hnl, collapseWs_eq_self l h1 h2,
    jsTrim_eq_self l (head_not_ws_of h1 h3) (last_not_ws_of h1 h4),
    stripChars_eq_self l hk]

/-! ## Claim C3 -/

/-- Claim C3, corrected.  formatForDisplay is idempotent on every input
that is undefined or empty, and on every input string whose cleaned form is
non-empty and is still trimmed and single-spaced (no leading, trailing or
doubled spaces) after the character-stripping step.  The original claim of
unconditional idempotence fails: stripping can empty the string (the second
application then returns the placeholder) and can leave stray spaces that a
second application re-collapses or re-trims. -/
theorem c3_format_idem (t : Option Str)
    (h : t = none ∨ t = some [] ∨ ∃ s : Str, t = some s ∧ s ≠ [] ∧
      cleanForDisplay s ≠ [] ∧ wordy (cleanForDisplay s) = true) :
    formatForDisplay (some (formatForDisplay t)) = formatForDisplay t := by
  rcases h with rfl | rfl | ⟨s, rfl, hs, hcne, hwd⟩
  · decide
  · decide
  · have hne : (s == []) = false := beq_eq_false_iff_ne.mpr hs
    have hkeep : ∀ c ∈ cleanForDisplay s, keepChar c = true := by
      intro c hcmem
      exact List.of_mem_filter hcmem
    by_cases hlen : (cleanForDisplay s).length < 60
    · have hout : formatForDisplay (some s) = upperStr (cleanForDisplay s) := by
        simp [formatForDisplay, hne, hlen]
      rw [hout]
      have hsh : (upperStr (cleanForDisplay s)).map jsUpChar =
          (cleanForDisplay s).map jsUpChar := upperStr_idem _
      have hupne : (upperStr (cleanForDisplay s) == []) = false := by
        refine beq_eq_false_iff_ne.mpr ?_
        intro hx
        apply hcne
        have := up_length_transfer _ _ hsh
        rw [hx] at this
        exact List.length_eq_zero.mp this.symm
      have hwd2 : wordy (upperStr (cleanForDisplay s)) = true := by
        rw [up_wordy_transfer _ _ hsh]
        exact hwd
      have hkeep2 : ∀ c ∈ upperStr (cleanForDisplay s), keepChar c = true := by
        have hall : (upperStr (cleanForDisplay s)).all keepChar =
            (cleanForDisplay s).all keepChar :=
          up_all_transfer keepChar keepChar_up _ _ hsh
        intro c hc
        have := List.all_eq_true.mp (by
          rw [hall]
          exact List.all_eq_true.mpr hkeep) c hc
        exact this
      have hcl2 : cleanForDisplay (upperStr (cleanForDisplay s)) =
          upperStr (cleanForDisplay s) := clean_eq_self_of_wordy _ hwd2 hkeep2
      have hlen2 : (upperStr (cleanForDisplay s)).length < 60 := by
        rw [upperStr, List.length_map]
        exact hlen
      simp only [formatForDisplay, hupne, Bool.false_eq_true, if_false, hcl2, hlen2,
        if_true, upperStr_idem]
    · have hout : formatForDisplay (some s) = kwReplace (cleanForDisplay s) := by
        simp [formatForDisplay, hne, hlen]
      rw [hout]
      have hsh : (kwReplace (cleanForDisplay s)).map jsUpChar =
          (cleanForDisplay s).map jsUpChar := kwReplaceAux_shape _ none _
      have hlenE : (kwReplace (cleanForDisplay s)).length = (cleanForDisplay s).length :=
        up_length_transfer _ _ hsh
      have hkne : (kwReplace (cleanForDisplay s) == []) = false := by
        refine beq_eq_false_iff_ne.mpr ?_
        intro hx
        apply hcne
        rw [hx] at hlenE
        exact List.length_eq_zero.mp hlenE.symm
      have hwd2 : wordy (kwReplace (cleanForDisplay s)) = true := by
        rw [up_wordy_transfer _ _ hsh]
        exact hwd
      have hkeep2 : ∀ c ∈ kwReplace (cleanForDisplay s), keepChar c = true := by
        have hall : (kwReplace (cleanForDisplay s)).all keepChar =
            (cleanForDisplay s).all keepChar :=
          up_all_transfer keepChar keepChar_up _ _ hsh
        intro c hc
        exact List.all_eq_true.mp (by
          rw [hall]
          exact List.all_eq_true.mpr hkeep) c hc
      have hcl2 : cleanForDisplay (kwReplace (cleanForDisplay s)) =
          kwReplace (cleanForDisplay s) := clean_eq_self_of_wordy _ hwd2 hkeep2
      have hlen2 : ¬ (kwReplace (cleanForDisplay s)).length < 60 := by
        rw [hlenE]
        exact hlen
      simp only [formatForDisplay, hkne, Bool.false_eq_true, if_false, hcl2, hlen2]
      show kwReplace (kwReplace (cleanForDisplay s)) = kwReplace (cleanForDisplay s)
      rw [kwReplace, kwReplace]
      have hlenE2 : List.length (kwReplaceAux (List.length (cleanForDisplay s)) none
          (cleanForDisplay s)) = List.length (cleanForDisplay s) := hlenE
      rw [hlenE2]
      exact kwReplaceAux_idem (cleanForDisplay s).length none none (cleanForDisplay s)
        le_rfl rfl

/-- Claim C3 fails as stated, on two inputs.  For the input consisting of
one stripped character the first application returns the empty string and
the second returns the placeholder.  For an input whose stripping leaves a
leading space the second application trims it away. -/
theorem c3_counterexample :
    formatForDisplay (some (formatForDisplay (some "~".data))) ≠
      formatForDisplay (some "~".data) ∧
    formatForDisplay (some (formatForDisplay (some "~ a".data))) ≠
      formatForDisplay (some "~ a".data) := by decide

theorem c3_format_idem_witness :
    formatForDisplay (some (formatForDisplay (some "hello there friend.".data))) =
      formatForDisplay (some "hello there friend.".data) :=
  c3_format_idem (some "hello there friend.".data)
    (Or.inr (Or.inr ⟨"hello there friend.".data, rfl, by decide, by decide, by decide⟩))

/-! ## Join and split lemmas for the layout engine -/

theorem joinSp_cons_ne (x : Str) (P : List Str) (h : P ≠ []) :
    joinSp (x :: P) = x ++ ' ' :: joinSp P := by
  cases P with
  | nil => exact absurd rfl h
  | cons y t => rfl

theorem joinSp_ne_nil (w : Str) (rest : List Str) (hw : w ≠ []) :
    joinSp (w :: rest) ≠ [] := by
  cases rest with
  | nil => simpa [joinSp] using hw
  | cons r t =>
    rw [joinSp_cons_ne w (r :: t) (by simp)]
    exact List.append_ne_nil_of_left_ne_nil hw _

theorem joinSp_append : ∀ (A B : List Str), A ≠ [] → B ≠ [] →
    joinSp (A ++ B) = joinSp A ++ ' ' :: joinSp B
  | [], _, hA, _ => absurd rfl hA
  | [a], B, _, hB => by
    rw [List.singleton_append, joinSp_cons_ne a B hB]
    rfl
  | a :: a' :: t, B, _, hB => by
    have hne : (a' :: t) ++ B ≠ [] := by simp
    rw [List.cons_append, joinSp_cons_ne a ((a' :: t) ++ B) hne,
      joinSp_append (a' :: t) B (by simp) hB,
      joinSp_cons_ne a (a' :: t) (by simp), List.append_assoc]
    rfl

theorem joinSp_append_cons (a b : Str) (rest : List Str) :
    joinSp ((a ++ ' ' :: b) :: rest) = a ++ ' ' :: joinSp (b :: rest) := by
  cases rest with
  | nil => rfl
  | cons r t =>
    rw [joinSp_cons_ne _ (r :: t) (by simp), joinSp_cons_ne b (r :: t) (by simp),
      List.append_assoc]
    rfl

theorem splitOnP_ne_nil (p : Char → Bool) : ∀ l : Str, splitOnP p l ≠ []
  | [] => by simp [splitOnP]
  | c :: rest => by
    by_cases hc : p c = true
    · simp [splitOnP, hc]
    · simp only [splitOnP, hc, Bool.false_eq_true, if_false]
      cases hs : splitOnP p rest with
      | nil => simp
      | cons piece pieces => simp

theorem splitOnP_no_sep (p : Char → Bool) :
    ∀ (l : Str) (piece : Str), piece ∈ splitOnP p l → ∀ c ∈ piece, p c = false
  | [], piece, hp, c, hc => by
    simp only [splitOnP, List.mem_singleton] at hp
    subst hp
    cases hc
  | a :: rest, piece, hp, c, hc => by
    by_cases ha : p a = true
    · simp only [splitOnP, ha, if_true, List.mem_cons] at hp
      rcases hp with rfl | hp
      · cases hc
      · exact splitOnP_no_sep p rest piece hp c hc
    · simp only [splitOnP, ha, Bool.false_eq_true, if_false] at hp
      cases hs : splitOnP p rest with
      | nil => exact absurd hs (splitOnP_ne_nil p rest)
      | cons q qs =>
        rw [hs] at hp
        simp only [List.mem_cons] at hp
        rcases hp with rfl | hp
        · simp only [List.mem_cons] at hc
          rcases hc with rfl | hc
          · simpa using ha
          · exact splitOnP_no_sep p rest q (by rw [hs]; exact List.mem_cons_self q qs) c hc
        · exact splitOnP_no_sep p rest piece (by rw [hs]; exact List.mem_cons_of_mem q hp) c hc

theorem splitOnP_mem_subset (p : Char → Bool) :
    ∀ (l : Str) (piece : Str), piece ∈ splitOnP p l → ∀ c ∈ piece, c ∈ l
  | [], piece, hp, c, hc => by
    simp only [splitOnP, List.mem_singleton] at hp
    subst hp
    cases hc
  | a :: rest, piece, hp, c, hc => by
    by_cases ha : p a = true
    · simp only [splitOnP, ha, if_true, List.mem_cons] at hp
      rcases hp with rfl | hp
      · cases hc
      · exact List.mem_cons_of_mem a (splitOnP_mem_subset p rest piece hp c hc)
    · simp only [splitOnP, ha, Bool.false_eq_true, if_false] at hp
      cases hs : splitOnP p rest with
      | nil => exact absurd hs (splitOnP_ne_nil p rest)
      | cons q qs =>
        rw [hs] at hp
        simp only [List.mem_cons] at hp
        rcases hp with rfl | hp
        · simp only [List.mem_cons] at hc
          rcases hc with rfl | hc
          · exact List.mem_cons_self c rest
          · exact List.mem_cons_of_mem a
              (splitOnP_mem_subset p rest q (by rw [hs]; exact List.mem_cons_self q qs) c hc)
        · exact List.mem_cons_of_mem a
            (splitOnP_mem_subset p rest piece (by rw [hs]; exact List.mem_cons_of_mem q hp) c hc)

theorem joinSp_splitOnP_space : ∀ l : Str, joinSp (splitOnP (fun c => c == ' ') l) = l
  | [] => rfl
  | c :: rest => by
    by_cases hc : (c == ' ') = true
    · have hcs : c = ' ' := eq_of_beq hc
      simp only [splitOnP, hc, if_true]
      rw [joinSp_cons_ne [] _ (splitOnP_ne_nil _ rest), List.nil_append,
        joinSp_splitOnP_space rest, hcs]
    · simp only [splitOnP, hc, Bool.false_eq_true, if_false]
      cases hs : splitOnP (fun c => c == ' ') rest with
      | nil => exact absurd hs (splitOnP_ne_nil _ rest)
      | cons piece pieces =>
        have hj : joinSp (piece :: pieces) = rest := by
          rw [← hs]
          exact joinSp_splitOnP_space rest
        cases pieces with
        | nil =>
          simp only [joinSp] at hj ⊢
          rw [hj]
        | cons q qs =>
          rw [joinSp_cons_ne (c :: piece) (q :: qs) (by simp), List.cons_append]
          rw [joinSp_cons_ne piece (q :: qs) (by simp)] at hj
          rw [hj]

/-! ## Shape predicates under concatenation -/

theorem headNotSpace_iff (l : Str) :
    headNotSpace l = true ↔ ∀ c, l.head? = some c → (c == ' ') = false := by
  cases l with
  | nil => simp [headNotSpace]
  | cons a t =>
    simp only [headNotSpace, List.head?_cons, Option.some.injEq, Bool.not_eq_true']
    constructor
    · intro h c hc
      subst hc
      exact h
    · intro h
      exact h a rfl

theorem hns_rev_iff (l : Str) :
    headNotSpace l.reverse = true ↔ ∀ c, l.getLast? = some c → (c == ' ') = false := by
  rw [headNotSpace_iff]
  simp only [List.head?_reverse]

theorem endsPunct_not_space {l : Str} (h : endsPunct l = true) :
    ∀ c, l.getLast? = some c → (c == ' ') = false := by
  intro c hc
  have h' : (c == '.' || c == '!' || c == '?') = true := by
    rw [endsPunct, hc] at h
    exact h
  have h2 : c = '.' ∨ c = '!' ∨ c = '?' := by
    by_cases e1 : c = '.'
    · exact Or.inl e1
    by_cases e2 : c = '!'
    · exact Or.inr (Or.inl e2)
    by_cases e3 : c = '?'
    · exact Or.inr (Or.inr e3)
    · exfalso
      have b1 : (c == '.') = false := beq_eq_false_iff_ne.mpr e1
      have b2 : (c == '!') = false := beq_eq_false_iff_ne.mpr e2
      have b3 : (c == '?') = false := beq_eq_false_iff_ne.mpr e3
      rw [b1, b2, b3] at h'
      simp at h'
  rcases h2 with rfl | rfl | rfl <;> decide

theorem noDbl_suffix : ∀ (a b : Str), noDbl (a ++ b) = true → noDbl b = true
  | [], _, h => h
  | x :: a', b, h => by
    have := noDbl_tail (c := x) (l := a' ++ b) (by simpa using h)
    exact noDbl_suffix a' b this

theorem noDbl_append_left : ∀ (a b : Str), noDbl (a ++ b) = true → noDbl a = true
  | [], _, _ => rfl
  | [_], _, _ => rfl
  | x :: y :: t, b, h => by
    simp only [List.cons_append, noDbl, Bool.and_eq_true] at h ⊢
    exact ⟨h.1, noDbl_append_left (y :: t) b h.2⟩

theorem onlySpaceWs_subset {l m : Str} (h : onlySpaceWs l = true)
    (hsub : ∀ c ∈ m, c ∈ l) : onlySpaceWs m = true := by
  simp only [onlySpaceWs, List.all_eq_true] at h ⊢
  intro c hc
  exact h c (hsub c hc)

theorem noDbl_glue : ∀ (a b : Str), noDbl a = true → noDbl b = true →
    (∀ c, a.getLast? = some c → (c == ' ') = false) → headNotSpace b = true →
    noDbl (a ++ ' ' :: b) = true
  | [], b, _, hb, _, hhb => by
    cases b with
    | nil => rfl
    | cons d t =>
      have hd : (d == ' ') = false := (headNotSpace_iff (d :: t)).mp hhb d rfl
      simp [noDbl, hd, hb]
  | [x], b, _, hb, hlast, hhb => by
    have hx : (x == ' ') = false := hlast x rfl
    have hrec := noDbl_glue [] b rfl hb (fun c hc => by cases hc) hhb
    simp only [List.nil_append] at hrec
    simp [noDbl, hx, hrec]
  | x :: y :: t, b, ha, hb, hlast, hhb => by
    simp only [List.cons_append, noDbl, Bool.and_eq_true] at ha ⊢
    refine ⟨ha.1, ?_⟩
    have hlast' : ∀ c, (y :: t).getLast? = some c → (c == ' ') = false := by
      intro c hc
      exact hlast c (by rwa [List.getLast?_cons_cons])
    have := noDbl_glue (y :: t) b ha.2 hb hlast' hhb
    simpa using this

theorem wordy_of_no_space (p : Str) (hsp : ∀ c ∈ p, (c == ' ') = false)
    (hws : ∀ c ∈ p, isJsWs c = false) : wordy p = true := by
  have h1 : onlySpaceWs p = true := by
    simp only [onlySpaceWs, List.all_eq_true]
    intro c hc
    simp [hws c hc]
  have h2 : noDbl p = true := noDbl_of_no_space p hsp
  have h3 : headNotSpace p = true := by
    rw [headNotSpace_iff]
    intro c hc
    exact hsp c (List.mem_of_mem_head? (by rw [hc]; rfl))
  have h4 : headNotSpace p.reverse = true := by
    rw [hns_rev_iff]
    intro c hc
    exact hsp c (mem_of_getLast?_eq hc)
  simp [wordy, h1, h2, h3, h4]

theorem getLast?_glue (a b : Str) (hb : b ≠ []) :
    (a ++ ' ' :: b).getLast? = b.getLast? := by
  rw [List.getLast?_append]
  cases b with
  | nil => exact absurd rfl hb
  | cons d t =>
    rw [List.getLast?_cons_cons]
    have hsome : ((d :: t).getLast?).isSome = true := List.getLast?_isSome.mpr (by simp)
    exact Option.or_of_isSome hsome

theorem wordy_glue (a b : Str) (ha : wordy a = true) (hane : a ≠ [])
    (hb : wordy b = true) (hbne : b ≠ []) : wordy (a ++ ' ' :: b) = true := by
  obtain ⟨ha1, ha2, ha3, ha4⟩ := wordy_parts ha
  obtain ⟨hb1, hb2, hb3, hb4⟩ := wordy_parts hb
  have h1 : onlySpaceWs (a ++ ' ' :: b) = true := by
    simp only [onlySpaceWs, List.all_eq_true] at ha1 hb1 ⊢
    intro c hc
    simp only [List.mem_append, List.mem_cons] at hc
    rcases hc with hc | rfl | hc
    · exact ha1 c hc
    · decide
    · exact hb1 c hc
  have h2 : noDbl (a ++ ' ' :: b) = true :=
    noDbl_glue a b ha2 hb2 ((hns_rev_iff a).mp ha4) hb3
  have h3 : headNotSpace (a ++ ' ' :: b) = true := by
    rw [headNotSpace_iff]
    intro c hc
    cases a with
    | nil => exact absurd rfl hane
    | cons x t =>
      rw [List.cons_append, List.head?_cons] at hc
      have hxc : x = c := by injection hc
      subst hxc
      exact (headNotSpace_iff (x :: t)).mp ha3 x rfl
  have h4 : headNotSpace (a ++ ' ' :: b).reverse = true := by
    rw [hns_rev_iff]
    intro c hc
    rw [getLast?_glue a b hbne] at hc
    exact (hns_rev_iff b).mp hb4 c hc
  rw [wordy, h1, h2, h3, h4]
  rfl

theorem wordy_joinSp : ∀ ws : List Str,
    (∀ w ∈ ws, w ≠ [] ∧ ∀ c ∈ w, isJsWs c = false) → wordy (joinSp ws) = true
  | [], _ => rfl
  | [w], h => by
    obtain ⟨hne, hws⟩ := h w (List.mem_cons_self w [])
    have hsp : ∀ c ∈ w, (c == ' ') = false := by
      intro c hc
      by_cases hcs : (c == ' ') = true
      · rw [eq_of_beq hcs] at hc
        have := hws ' ' hc
        simp [isJsWs] at this
      · simpa using hcs
    exact wordy_of_no_space w hsp hws
  | w :: w' :: t, h => by
    obtain ⟨hne, hws⟩ := h w (List.mem_cons_self w _)
    have hsp : ∀ c ∈ w, (c == ' ') = false := by
      intro c hc
      by_cases hcs : (c == ' ') = true
      · rw [eq_of_beq hcs] at hc
        have := hws ' ' hc
        simp [isJsWs] at this
      · simpa using hcs
    have hw : wordy w = true := wordy_of_no_space w hsp hws
    have hrest := wordy_joinSp (w' :: t) (fun x hx => h x (List.mem_cons_of_mem w hx))
    have hrestne : joinSp (w' :: t) ≠ [] :=
      joinSp_ne_nil w' t (h w' (by simp)).1
    rw [joinSp_cons_ne w (w' :: t) (by simp)]
    exact wordy_glue w (joinSp (w' :: t)) hw hne hrest hrestne

/-! ## The accumulate-and-flush loop preserves the joined text -/

theorem accumLoop_ne_nil (jn : Str → Str → Str) (m : Str → Nat) (mw : Nat)
    (hjn : ∀ cur s, cur ≠ [] → jn cur s = cur ++ ' ' :: s) :
    ∀ (ss : List Str) (cur : Str), cur ≠ [] → accumLoop jn m mw cur ss ≠ []
  | [], cur, hc => by
    have hlen : 0 < cur.length := List.length_pos.mpr hc
    simp [accumLoop, hlen]
  | s :: rest, cur, hc => by
    simp only [accumLoop]
    by_cases hcond : mw < m (jn cur s) ∧ 0 < cur.length
    · rw [if_pos hcond]
      simp
    · rw [if_neg hcond]
      have htne : jn cur s ≠ [] := by
        rw [hjn cur s hc]
        exact List.append_ne_nil_of_left_ne_nil hc _
      exact accumLoop_ne_nil jn m mw hjn rest (jn cur s) htne

theorem accumLoop_spec (jn : Str → Str → Str) (m : Str → Nat) (mw : Nat)
    (hjn : ∀ cur s, cur ≠ [] → jn cur s = cur ++ ' ' :: s) :
    ∀ (ss : List Str) (cur : Str), cur ≠ [] → wordy cur = true →
      (∀ s ∈ ss, s ≠ [] ∧ wordy s = true) →
      joinSp (accumLoop jn m mw cur ss) = joinSp (cur :: ss) ∧
      ∀ p ∈ accumLoop jn m mw cur ss, p ≠ [] ∧ wordy p = true
  | [], cur, hc, hwc, _ => by
    have hlen : 0 < cur.length := List.length_pos.mpr hc
    constructor
    · simp [accumLoop, hlen]
    · intro p hp
      simp only [accumLoop, hlen, if_true, List.mem_singleton] at hp
      subst hp
      exact ⟨hc, hwc⟩
  | s :: rest, cur, hc, hwc, hss => by
    obtain ⟨hsne, hsw⟩ := hss s (List.mem_cons_self s rest)
    have hrest : ∀ x ∈ rest, x ≠ [] ∧ wordy x = true :=
      fun x hx => hss x (List.mem_cons_of_mem s hx)
    have ht : jn cur s = cur ++ ' ' :: s := hjn cur s hc
    have htne : jn cur s ≠ [] := by
      rw [ht]
      exact List.append_ne_nil_of_left_ne_nil hc _
    have htw : wordy (jn cur s) = true := by
      rw [ht]
      exact wordy_glue cur s hwc hc hsw hsne
    by_cases hcond : mw < m (jn cur s) ∧ 0 < cur.length
    · have IH := accumLoop_spec jn m mw hjn rest s hsne hsw hrest
      have hrecne : accumLoop jn m mw s rest ≠ [] :=
        accumLoop_ne_nil jn m mw hjn rest s hsne
      constructor
      · simp only [accumLoop]
        rw [if_pos hcond, joinSp_cons_ne cur _ hrecne, IH.1,
          joinSp_cons_ne cur (s :: rest) (by simp)]
      · intro p hp
        simp only [accumLoop] at hp
        rw [if_pos hcond] at hp
        simp only [List.mem_cons] at hp
        rcases hp with rfl | hp
        · exact ⟨hc, hwc⟩
        · exact IH.2 p hp
    · have IH := accumLoop_spec jn m mw hjn rest (jn cur s) htne htw hrest
      constructor
      · simp only [accumLoop]
        rw [if_neg hcond, IH.1, ht, joinSp_append_cons,
          joinSp_cons_ne cur (s :: rest) (by simp)]
      · intro p hp
        simp only [accumLoop] at hp
        rw [if_neg hcond] at hp
        exact IH.2 p hp

/-! ## The sentence split preserves the joined text on wordy input -/

theorem go_ne_nil : ∀ (cur l : Str), splitSentences.go cur l ≠ []
  | cur, [] => by simp [splitSentences.go]
  | cur, [c] => by
    by_cases h : (isJsWs c && endsPunct cur) = true
    · simp [splitSentences.go, h]
    · simp [splitSentences.go, h]
  | cur, c :: d :: rest => by
    by_cases h : (isJsWs c && endsPunct cur) = true
    · by_cases hd : isJsWs d = true
      · simpa [splitSentences.go, h, hd] using go_ne_nil cur (d :: rest)
      · simp [splitSentences.go, h, hd]
    · simpa [splitSentences.go, h] using go_ne_nil (cur ++ [c]) (d :: rest)

theorem go_spec : ∀ (l cur : Str), wordy (cur ++ l) = true → (cur = [] → l ≠ []) →
    joinSp (splitSentences.go cur l) = cur ++ l ∧
    ∀ p ∈ splitSentences.go cur l, p ≠ [] ∧ wordy p = true
  | [], cur, hw, hne => by
    have hcur : cur ≠ [] := fun h => (hne h) rfl
    constructor
    · simp [splitSentences.go, joinSp]
    · intro p hp
      simp only [splitSentences.go, List.mem_singleton] at hp
      subst hp
      refine ⟨hcur, ?_⟩
      simpa using hw
  | [c], cur, hw, hne => by
    obtain ⟨h1, h2, h3, h4⟩ := wordy_parts hw
    by_cases hsep : (isJsWs c && endsPunct cur) = true
    · exfalso
      simp only [Bool.and_eq_true] at hsep
      obtain ⟨hcws, hpunct⟩ := hsep
      have hcsp : c = ' ' := by
        have hcmem : c ∈ cur ++ [c] := by simp
        have := List.all_eq_true.mp h1 c hcmem
        rw [hcws] at this
        simpa using this
      have hlastP := (hns_rev_iff (cur ++ [c])).mp h4
      have := hlastP c (List.getLast?_concat cur)
      rw [hcsp] at this
      simp at this
    · constructor
      · simp [splitSentences.go, hsep, joinSp]
      · intro p hp
        simp only [splitSentences.go, hsep, Bool.false_eq_true, if_false,
          List.mem_singleton] at hp
        subst hp
        exact ⟨by simp, hw⟩
  | c :: d :: rest, cur, hw, hne => by
    obtain ⟨h1, h2, h3, h4⟩ := wordy_parts hw
    by_cases hsep : (isJsWs c && endsPunct cur) = true
    · simp only [Bool.and_eq_true] at hsep
      obtain ⟨hcws, hpunct⟩ := hsep
      have hcur : cur ≠ [] := by
        intro h
        rw [h] at hpunct
        simp [endsPunct] at hpunct
      have hcsp : c = ' ' := by
        have hcmem : c ∈ cur ++ c :: d :: rest := by simp
        have := List.all_eq_true.mp h1 c hcmem
        rw [hcws] at this
        simpa using this
      subst hcsp
      by_cases hd : isJsWs d = true
      · exfalso
        have hdsp : d = ' ' := by
          have hdmem : d ∈ cur ++ ' ' :: d :: rest := by simp
          have := List.all_eq_true.mp h1 d hdmem
          rw [hd] at this
          simpa using this
        have hsuf : noDbl (' ' :: d :: rest) = true := noDbl_suffix cur _ h2
        rw [hdsp] at hsuf
        simp [noDbl] at hsuf
      · have hd' : isJsWs d = false := by simpa using hd
        have hdsp : (d == ' ') = false := by
          refine beq_eq_false_iff_ne.mpr ?_
          intro h
          rw [h] at hd'
          simp [isJsWs] at hd'
        -- the flushed piece is wordy
        have hwcur : wordy cur = true := by
          have hc1 : onlySpaceWs cur = true :=
            onlySpaceWs_subset h1 (fun x hx => List.mem_append_left _ hx)
          have hc2 : noDbl cur = true := noDbl_append_left cur _ h2
          have hc3 : headNotSpace cur = true := by
            cases hcc : cur with
            | nil => exact absurd hcc hcur
            | cons x t =>
              rw [hcc, List.cons_append] at h3
              simp only [headNotSpace] at h3 ⊢
              exact h3
          have hc4 : headNotSpace cur.reverse = true :=
            (hns_rev_iff cur).mpr (endsPunct_not_space hpunct)
          rw [wordy, hc1, hc2, hc3, hc4]
          rfl
        -- the remainder is wordy
        have hglue : (cur ++ ' ' :: d :: rest).getLast? = (d :: rest).getLast? :=
          getLast?_glue cur (d :: rest) (by simp)
        have hwrest : wordy (d :: rest) = true := by
          have hr1 : onlySpaceWs (d :: rest) = true :=
            onlySpaceWs_subset h1 (fun x hx =>
              List.mem_append_right _ (List.mem_cons_of_mem ' ' hx))
          have hr2 : noDbl (d :: rest) = true :=
            noDbl_tail (noDbl_suffix cur _ h2)
          have hr3 : headNotSpace (d :: rest) = true := by
            simp [headNotSpace, hdsp]
          have hr4 : headNotSpace (d :: rest).reverse = true := by
            rw [hns_rev_iff]
            intro x hx
            exact (hns_rev_iff _).mp h4 x (by rw [hglue]; exact hx)
          rw [wordy, hr1, hr2, hr3, hr4]
          rfl
        have IH := go_spec rest [d] hwrest (fun h => by cases h)
        have hsepB : (isJsWs ' ' && endsPunct cur) = true := by
          rw [hpunct, Bool.and_true]
          decide
        constructor
        · simp only [splitSentences.go, hsepB, if_true, hd', Bool.false_eq_true, if_false]
          rw [joinSp_cons_ne cur _ (go_ne_nil [d] rest), IH.1]
          rfl
        · intro p hp
          simp only [splitSentences.go, hsepB, if_true, hd', Bool.false_eq_true, if_false,
            List.mem_cons] at hp
          rcases hp with rfl | hp
          · exact ⟨hcur, hwcur⟩
          · exact IH.2 p hp
    · have hwB : wordy ((cur ++ [c]) ++ d :: rest) = true := by
        rw [List.append_assoc]
        exact hw
      have IH := go_spec (d :: rest) (cur ++ [c]) hwB
        (fun h => absurd h (by simp))
      constructor
      · have hj := IH.1
        rw [List.append_assoc] at hj
        simpa [splitSentences.go, hsep] using hj
      · intro p hp
        simp only [splitSentences.go, hsep, if_false] at hp
        exact IH.2 p hp

theorem splitSentences_spec (text : Str) (hw : wordy text = true) (hne : text ≠ []) :
    joinSp (splitSentences text) = text ∧
    ∀ p ∈ splitSentences text, p ≠ [] ∧ wordy p = true :=
  go_spec text [] hw (fun _ => hne)

/-! ## Word-phase lemmas -/

theorem splitSp_pieces_ne : ∀ (n : Nat) (l : Str), l.length ≤ n → l ≠ [] →
    noDbl l = true → headNotSpace l = true → headNotSpace l.reverse = true →
    ∀ p ∈ splitOnP (fun c => c == ' ') l, p ≠ []
  | 0, l, hlen, hne, _, _, _, _, _ => by
    cases l with
    | nil => exact absurd rfl hne
    | cons a t => simp at hlen
  | n + 1, l, hlen, hne, h2, h3, h4, p, hp => by
    cases l with
    | nil => exact absurd rfl hne
    | cons c rest =>
      have hcsp : (c == ' ') = false := by simpa [headNotSpace] using h3
      cases hs : splitOnP (fun x => x == ' ') rest with
      | nil => exact absurd hs (splitOnP_ne_nil _ rest)
      | cons piece pieces =>
        have hsplit : splitOnP (fun x => x == ' ') (c :: rest) = (c :: piece) :: pieces := by
          simp only [splitOnP, hcsp, Bool.false_eq_true, if_false, hs]
        rw [hsplit] at hp
        simp only [List.mem_cons] at hp
        rcases hp with rfl | hp
        · simp
        · cases rest with
          | nil =>
            simp only [splitOnP] at hs
            injection hs with hs1 hs2
            rw [← hs2] at hp
            cases hp
          | cons d r =>
            by_cases hd : (d == ' ') = true
            · have hdr : d = ' ' := eq_of_beq hd
              subst hdr
              simp only [splitOnP, hd, if_true] at hs
              injection hs with hs1 hs2
              have hrne : r ≠ [] := by
                intro h
                subst h
                have := (hns_rev_iff [c, ' ']).mp h4 ' ' (by simp)
                simp at this
              have hrhead : headNotSpace r = true := by
                cases r with
                | nil => rfl
                | cons e r' =>
                  have he : (e == ' ') = false := noDbl_second (noDbl_tail h2) rfl
                  simp [headNotSpace, he]
              have hrlast : headNotSpace r.reverse = true := by
                rw [hns_rev_iff]
                intro x hx
                refine (hns_rev_iff (c :: ' ' :: r)).mp h4 x ?_
                cases r with
                | nil => exact absurd rfl hrne
                | cons e r' =>
                  rw [List.getLast?_cons_cons, List.getLast?_cons_cons]
                  exact hx
              have hrdbl : noDbl r = true := noDbl_tail (noDbl_tail h2)
              have hrlen : r.length ≤ n := by
                simp only [List.length_cons] at hlen
                omega
              rw [← hs2] at hp
              exact splitSp_pieces_ne n r hrlen hrne hrdbl hrhead hrlast p hp
            · have hd' : (d == ' ') = false := by simpa using hd
              have hrestne : (d :: r) ≠ [] := by simp
              have hrhead : headNotSpace (d :: r) = true := by simp [headNotSpace, hd']
              have hrlast : headNotSpace (d :: r).reverse = true := by
                rw [hns_rev_iff]
                intro x hx
                refine (hns_rev_iff (c :: d :: r)).mp h4 x ?_
                rw [List.getLast?_cons_cons]
                exact hx
              have hrdbl : noDbl (d :: r) = true := noDbl_tail h2
              have hrlen : (d :: r).length ≤ n := by
                simp only [List.length_cons] at hlen ⊢
                omega
              have hall := splitSp_pieces_ne n (d :: r) hrlen hrestne hrdbl hrhead hrlast p
              rw [hs] at hall
              exact hall (List.mem_cons_of_mem piece hp)

theorem splitSp_piece_wordy {line : Str} (hline : onlySpaceWs line = true) :
    ∀ p ∈ splitOnP (fun c => c == ' ') line, wordy p = true := by
  intro p hp
  have hnsp : ∀ c ∈ p, (c == ' ') = false :=
    fun c hc => splitOnP_no_sep _ line p hp c hc
  have hnws : ∀ c ∈ p, isJsWs c = false := by
    intro c hc
    by_cases hws : isJsWs c = true
    · have hcl : c ∈ line := splitOnP_mem_subset _ line p hp c hc
      have hsp := List.all_eq_true.mp hline c hcl
      rw [hws] at hsp
      simp only [Bool.not_true, Bool.false_or] at hsp
      have := hnsp c hc
      rw [hsp] at this
      cases this
    · simpa using hws
  exact wordy_of_no_space p hnsp hnws

theorem wordWrapLine_spec (measure : Str → Nat) (mw : Nat) (line : Str)
    (hne : line ≠ []) (hw : wordy line = true) :
    joinSp (wordWrapLine measure mw line) = line ∧ wordWrapLine measure mw line ≠ [] := by
  obtain ⟨h1, h2, h3, h4⟩ := wordy_parts hw
  cases hs : splitOnP (fun c => c == ' ') line with
  | nil => exact absurd hs (splitOnP_ne_nil _ line)
  | cons w ws =>
    have hpieces : ∀ p ∈ splitOnP (fun c => c == ' ') line, p ≠ [] :=
      splitSp_pieces_ne line.length line le_rfl hne h2 h3 h4
    have hwordy : ∀ p ∈ splitOnP (fun c => c == ' ') line, wordy p = true :=
      splitSp_piece_wordy h1
    have hwne : w ≠ [] := hpieces w (by rw [hs]; exact List.mem_cons_self w ws)
    have hww : wordy w = true := hwordy w (by rw [hs]; exact List.mem_cons_self w ws)
    have hwss : ∀ s ∈ ws, s ≠ [] ∧ wordy s = true := by
      intro s hsmem
      exact ⟨hpieces s (by rw [hs]; exact List.mem_cons_of_mem w hsmem),
        hwordy s (by rw [hs]; exact List.mem_cons_of_mem w hsmem)⟩
    have hjn : ∀ cur s, cur ≠ [] → joinWord cur s = cur ++ ' ' :: s := fun _ _ _ => rfl
    have hspec := accumLoop_spec joinWord measure mw hjn ws w hwne hww hwss
    constructor
    · simp only [wordWrapLine, hs]
      rw [hspec.1, ← hs, joinSp_splitOnP_space line]
    · simp only [wordWrapLine, hs]
      exact accumLoop_ne_nil joinWord measure mw hjn ws w hwne

theorem joinSent_nil (s : Str) : joinSent [] s = s := by
  simp [joinSent]

theorem joinSent_cons (cur s : Str) (h : cur ≠ []) : joinSent cur s = cur ++ ' ' :: s := by
  have hlen : 0 < cur.length := List.length_pos.mpr h
  simp [joinSent, hlen]

theorem accumLoop_nil_start (jn : Str → Str → Str) (m : Str → Nat) (mw : Nat)
    (p : Str) (ps : List Str) :
    accumLoop jn m mw [] (p :: ps) = accumLoop jn m mw (jn [] p) ps := by
  have hno : ¬ (mw < m (jn [] p) ∧ 0 < ([] : Str).length) := by
    rintro ⟨_, h0⟩
    simp at h0
  simp only [accumLoop]
  rw [if_neg hno]

theorem flatten_map_joinSp (f : Str → List Str) :
    ∀ lines : List Str, (∀ line ∈ lines, f line ≠ [] ∧ joinSp (f line) = line) →
      joinSp (List.flatten (lines.map f)) = joinSp lines
  | [], _ => rfl
  | l :: rest, h => by
    obtain ⟨hfne, hfj⟩ := h l (List.mem_cons_self l rest)
    cases rest with
    | nil =>
      show joinSp (List.flatten [f l]) = joinSp [l]
      simp only [List.flatten_cons, List.flatten_nil, List.append_nil]
      rw [hfj]
      rfl
    | cons r rest' =>
      have hrest := flatten_map_joinSp f (r :: rest')
        (fun x hx => h x (List.mem_cons_of_mem l hx))
      have hBne : List.flatten ((r :: rest').map f) ≠ [] := by
        simp only [List.map_cons, List.flatten_cons]
        exact List.append_ne_nil_of_left_ne_nil (h r (by simp)).1 _
      show joinSp (List.flatten (f l :: (r :: rest').map f)) = joinSp (l :: r :: rest')
      rw [List.flatten_cons, joinSp_append (f l) _ hfne hBne, hfj, hrest,
        joinSp_cons_ne l (r :: rest') (by simp)]

/-! ## Claim C2 -/

/-- Claim C2, confirmed.  For every input text whose words are separated by
single spaces (a space-joined list of non-empty whitespace-free words, as
formatForDisplay produces), every maxWidth and every text-measurement
function, concatenating the line sequence returned by wrapText with single
spaces yields the original text, with no words dropped or duplicated, for
any input with no single word wider than maxWidth. -/
theorem c2_wrap_preserves_text (measure : Str → Nat) (maxWidth : Nat) (ws : List Str)
    (hwords : ∀ w ∈ ws, w ≠ [] ∧ ∀ c ∈ w, isJsWs c = false)
    (hfit : ∀ w ∈ ws, measure w ≤ maxWidth) :
    joinSp (wrapText measure (joinSp ws) maxWidth) = joinSp ws := by
  cases ws with
  | nil =>
    show joinSp (wrapText measure [] maxWidth) = []
    have h1 : splitSentences ([] : Str) = [[]] := rfl
    have h2 : accumLoop joinSent measure maxWidth [] [[]] = [] := by
      rw [accumLoop_nil_start joinSent measure maxWidth [] [], joinSent_nil]
      simp [accumLoop]
    simp only [wrapText]
    rw [h1, h2]
    rfl
  | cons w rest =>
    have hwne : w ≠ [] := (hwords w (by simp)).1
    have htne : joinSp (w :: rest) ≠ [] := joinSp_ne_nil w rest hwne
    have htw : wordy (joinSp (w :: rest)) = true := wordy_joinSp (w :: rest) hwords
    obtain ⟨hsj, hsp⟩ := splitSentences_spec (joinSp (w :: rest)) htw htne
    cases hsplit : splitSentences (joinSp (w :: rest)) with
    | nil => exact absurd hsplit (go_ne_nil [] _)
    | cons p ps =>
      rw [hsplit] at hsj hsp
      have hpne : p ≠ [] := (hsp p (by simp)).1
      have hpw : wordy p = true := (hsp p (by simp)).2
      have hps : ∀ s ∈ ps, s ≠ [] ∧ wordy s = true :=
        fun s hsm => hsp s (List.mem_cons_of_mem p hsm)
      have hlines := accumLoop_spec joinSent measure maxWidth
        (fun cur s h => joinSent_cons cur s h) ps p hpne hpw hps
      have hperline : ∀ line ∈ accumLoop joinSent measure maxWidth p ps,
          (fun line => if measure line ≤ maxWidth then [line]
            else wordWrapLine measure maxWidth line) line ≠ [] ∧
          joinSp ((fun line => if measure line ≤ maxWidth then [line]
            else wordWrapLine measure maxWidth line) line) = line := by
        intro line hline
        obtain ⟨hlne, hlw⟩ := hlines.2 line hline
        by_cases hfitl : measure line ≤ maxWidth
        · exact ⟨by simp [hfitl], by simp [hfitl, joinSp]⟩
        · obtain ⟨hwj, hwne2⟩ := wordWrapLine_spec measure maxWidth line hlne hlw
          exact ⟨by simp [hfitl, hwne2], by simp [hfitl, hwj]⟩
      have hflat := flatten_map_joinSp
        (fun line => if measure line ≤ maxWidth then [line]
          else wordWrapLine measure maxWidth line)
        (accumLoop joinSent measure maxWidth p ps) hperline
      show joinSp (wrapText measure (joinSp (w :: rest)) maxWidth) = joinSp (w :: rest)
      simp only [wrapText]
      rw [hsplit, accumLoop_nil_start joinSent measure maxWidth p ps, joinSent_nil,
        hflat, hlines.1, hsj]

theorem c2_wrap_preserves_text_witness :
    joinSp (wrapText (fun l => l.length) (joinSp ["ab.".data, "cdef".data]) 6) =
      joinSp ["ab.".data, "cdef".data] :=
  c2_wrap_preserves_text (fun l => l.length) 6 ["ab.".data, "cdef".data]
    (by decide) (by decide)
